import Mathlib

/-!
Verification of the `lpm` longest-prefix-match program.

This file contains a shallow embedding of the two core C++ templates of the
repository, `BitArray<N>` (src/bitarray.h) and `BinaryTrie<N, T>`
(src/bintrie.h), together with proofs about them.

Modelling conventions:
* `unsigned char` bytes are `Nat` values; well-formed byte buffers have every
  entry `< 256` and length `N`.
* Machine pointers are modelled by a functional tree together with an
  allocation identifier (`nid`) stamped on every node; the parent pointers of
  the C++ code are modelled by zipper contexts (the list of ancestors of the
  node currently in focus), which carries exactly the information the parent
  chain carries in a tree.
* `delete` is modelled by recording the id of the deleted node in a "freed"
  list, so that double frees are observable.
* C++ exceptions (`std::out_of_range`, the NotFound signal) are modelled by
  `Option` results / a `Bool` "found" flag.
-/

set_option maxHeartbeats 1000000
set_option maxRecDepth 100000

/-- Fixed-capacity bit string of at most `N` bytes: the `bits` byte buffer and
the logical bit length `bitCount`, mirroring `BitArray<N>` of src/bitarray.h. -/
structure BitArray (N : Nat) where
  bits : List Nat
  bitCount : Nat
deriving DecidableEq

namespace BitArray

variable {N : Nat}

/-- `BitArray::size()`: the logical bit length. -/
def size (a : BitArray N) : Nat := a.bitCount

/-- `BitArray::empty()`: whether the logical length is zero. -/
def isEmptyKey (a : BitArray N) : Bool := a.bitCount == 0

/-- A default-constructed `BitArray()`: length 0.  (In C++ the storage bytes
are uninitialized; the program never observes them, we model them as 0.) -/
instance : Inhabited (BitArray N) := ⟨⟨List.replicate N 0, 0⟩⟩

/-- `BitArray::operator[]` (const): bit `i`, MSB-first within each byte, i.e.
byte `i/8` masked with `0x80 >> (i % 8)`. -/
def bit (a : BitArray N) (i : Nat) : Bool :=
  Nat.testBit (a.bits.getD (i / 8) 0) (7 - i % 8)

/-- `BitArray::getByteCount`: `(nbits + 7) >> 3`. -/
def getByteCount (nbits : Nat) : Nat := (nbits + 7) / 8

/-- Count of leading zeros of a byte value: the `__builtin_clz(r) - 24`
computation of `firstDifferentBit` for values `r` that "have one's only in the
last byte", i.e. `0 < r < 256`. -/
def clz8 (r : Nat) : Nat :=
  if 128 ≤ r then 0 else if 64 ≤ r then 1 else if 32 ≤ r then 2 else if 16 ≤ r then 3
  else if 8 ≤ r then 4 else if 4 ≤ r then 5 else if 2 ≤ r then 6 else if 1 ≤ r then 7 else 8

/-- The byte-scanning loop of `BitArray::firstDifferentBit`: starting at byte
index `i` with accumulated `result`, XOR bytes while `i * 8 < n`; on the first
non-zero XOR locate the differing bit with count-leading-zeros. -/
def fdbLoop (xs ys : List Nat) (n : Nat) (i : Nat) (result : Nat) : Nat :=
  if i * 8 < n then
    let r := (xs.getD i 0) ^^^ (ys.getD i 0)
    if r = 0 then fdbLoop xs ys n (i + 1) ((i + 1) * 8)
    else i * 8 + clz8 r
  else result
termination_by n - i * 8
decreasing_by omega

/-- `BitArray::firstDifferentBit(other, n)`: byte-by-byte XOR scan, result
clamped to `n`. -/
def firstDifferentBit (a b : BitArray N) (n : Nat) : Nat :=
  let result := fdbLoop a.bits b.bits n 0 0
  if result > n then n else result

/-- `BitArray::compareBits(other, nbits)`: false when either string is shorter
than `nbits`; otherwise `memcmp` on the `nbits / 8` whole bytes and a masked
comparison of the top `nbits % 8` bits of the next byte.  The C++ mask
`(~0) << (WORD_BITS - offset)` truncated to `unsigned char` is
`256 - 2 ^ (8 - offset)`. -/
def compareBits (a b : BitArray N) (nbits : Nat) : Bool :=
  if nbits > a.bitCount || nbits > b.bitCount then false
  else
    let n := nbits / 8
    let offset := nbits % 8
    if a.bits.take n ≠ b.bits.take n then false
    else if offset ≠ 0 then
      let mask := 256 - 2 ^ (8 - offset)
      (a.bits.getD n 0) &&& mask == (b.bits.getD n 0) &&& mask
    else true

/-- `strncmp` on byte buffers: compares up to `n` bytes, stopping early at the
first pair of equal bytes that are 0 (C string semantics).  Models the
`strncmp((const char*)lhs.bits, (const char*)rhs.bits, …)` call in
`operator<`. -/
def strncmpBytes : List Nat → List Nat → Nat → Int
  | _, _, 0 => 0
  | xs, ys, n + 1 =>
    let c1 := xs.headD 0
    let c2 := ys.headD 0
    if c1 ≠ c2 then (c1 : Int) - (c2 : Int)
    else if c1 = 0 then 0
    else strncmpBytes xs.tail ys.tail n

/-- `operator<(BitArray, BitArray)`: shorter strings first; at equal length the
verdict of `strncmp` over `getByteCount(bitCount)` bytes. -/
def lt (a b : BitArray N) : Bool :=
  if a.bitCount < b.bitCount then true
  else if a.bitCount > b.bitCount then false
  else strncmpBytes a.bits b.bits (getByteCount a.bitCount) < 0

/-- Well-formedness of a `BitArray<N>` value as it exists in the C++ program:
`N` storage bytes, each a `unsigned char` value, and `len ≤ N·8`. -/
def WF (a : BitArray N) : Prop :=
  a.bits.length = N ∧ (∀ x ∈ a.bits, x < 256) ∧ a.bitCount ≤ 8 * N

instance (a : BitArray N) : Decidable a.WF := by
  unfold WF; infer_instance

/-- Bit `p` of a raw byte buffer, MSB-first (same convention as `bit`). -/
def listBit (xs : List Nat) (p : Nat) : Bool :=
  Nat.testBit (xs.getD (p / 8) 0) (7 - p % 8)

lemma bit_eq_listBit (a : BitArray N) (i : Nat) : a.bit i = listBit a.bits i := rfl

lemma getD_lt_256 {xs : List Nat} (h : ∀ x ∈ xs, x < 256) (i : Nat) : xs.getD i 0 < 256 := by
  rcases lt_or_ge i xs.length with hi | hi
  · rw [List.getD_eq_getElem _ _ hi]
    exact h _ (List.getElem_mem hi)
  · rw [List.getD_eq_default _ _ hi]
    decide

lemma clz8_spec : ∀ r, r < 256 → 0 < r →
    clz8 r < 8 ∧ Nat.testBit r (7 - clz8 r) = true ∧
      ∀ j, j < clz8 r → Nat.testBit r (7 - j) = false := by
  decide

/-- Two equal bytes agree on all MSB-first bit reads. -/
lemma listBit_byte_eq {xs ys : List Nat} {i : Nat}
    (h : xs.getD i 0 = ys.getD i 0) {p : Nat} (hp : p / 8 = i) :
    listBit xs p = listBit ys p := by
  simp only [listBit, hp, h]

/-- Loop invariant proof for the byte-scanning loop of `firstDifferentBit`:
the result `d` satisfies: all bit positions `< d` that are `< n` agree, and
either `n ≤ d` or the bit at `d` disagrees. -/
lemma fdbLoop_spec : ∀ (xs ys : List Nat) (n i res : Nat),
    (∀ x ∈ xs, x < 256) → (∀ y ∈ ys, y < 256) →
    (∀ p, p < i * 8 → listBit xs p = listBit ys p) →
    (res = i * 8 ∨ (i = 0 ∧ res = 0)) →
    (∀ p, p < fdbLoop xs ys n i res → p < n → listBit xs p = listBit ys p) ∧
    (n ≤ fdbLoop xs ys n i res ∨
      listBit xs (fdbLoop xs ys n i res) ≠ listBit ys (fdbLoop xs ys n i res)) := by
  intro xs ys n i res
  induction i, res using fdbLoop.induct xs ys n with
  | case1 i res hlt r hr ih =>
    intro hx hy hagree hres
    rw [show fdbLoop xs ys n i res = fdbLoop xs ys n (i + 1) ((i + 1) * 8) from by
          rw [fdbLoop, if_pos hlt]; exact if_pos hr]
    refine ih hx hy ?_ (Or.inl rfl)
    intro p hp
    rcases lt_or_ge p (i * 8) with h | h
    · exact hagree p h
    · refine listBit_byte_eq
        (Nat.xor_eq_zero.mp (show xs.getD i 0 ^^^ ys.getD i 0 = 0 from hr)) ?_
      omega
  | case2 i res hlt r hr =>
    intro hx hy hagree hres
    have hr256 : r < 256 :=
      Nat.xor_lt_two_pow (n := 8) (getD_lt_256 hx i) (getD_lt_256 hy i)
    have hrpos : 0 < r := Nat.pos_of_ne_zero hr
    obtain ⟨hc8, hcbit, hclow⟩ := clz8_spec r hr256 hrpos
    have hbit : ∀ k, Nat.testBit r k =
        ((Nat.testBit (xs.getD i 0) k).xor (Nat.testBit (ys.getD i 0) k)) :=
      fun k => Nat.testBit_xor (xs.getD i 0) (ys.getD i 0) k
    have heval : fdbLoop xs ys n i res = i * 8 + clz8 r := by
      rw [fdbLoop, if_pos hlt]; exact if_neg hr
    rw [heval]
    constructor
    · intro p hp _
      rcases lt_or_ge p (i * 8) with h | h
      · exact hagree p h
      · have hdiv : p / 8 = i := by omega
        have hmod : p % 8 = p - i * 8 := by omega
        have hj := hclow (p - i * 8) (by omega)
        rw [hbit] at hj
        simp only [listBit, hdiv, hmod]
        cases hxs : Nat.testBit (xs.getD i 0) (7 - (p - i * 8)) <;>
          cases hys : Nat.testBit (ys.getD i 0) (7 - (p - i * 8)) <;> simp_all
    · right
      have hdiv : (i * 8 + clz8 r) / 8 = i := by omega
      have hmod : (i * 8 + clz8 r) % 8 = clz8 r := by omega
      rw [hbit] at hcbit
      simp only [listBit, hdiv, hmod]
      cases hxs : Nat.testBit (xs.getD i 0) (7 - clz8 r) <;>
        cases hys : Nat.testBit (ys.getD i 0) (7 - clz8 r) <;> simp_all
  | case3 i res hlt =>
    intro hx hy hagree hres
    rw [fdbLoop, if_neg hlt]
    rcases hres with hres | ⟨hi0, hres0⟩
    · subst hres
      exact ⟨fun p hp _ => hagree p hp, Or.inl (by omega)⟩
    · subst hi0
      subst hres0
      exact ⟨fun p hp _ => absurd hp (by omega), Or.inl (by omega)⟩

/-- The C4 contract of `BitArray::firstDifferentBit`: the returned `d` is
at most `n`, all bits below `d` agree, and either `d = n` or bit `d`
disagrees. -/
theorem firstDifferentBit_spec (a b : BitArray N) (n : Nat)
    (ha : ∀ x ∈ a.bits, x < 256) (hb : ∀ x ∈ b.bits, x < 256) :
    a.firstDifferentBit b n ≤ n ∧
    (∀ i, i < a.firstDifferentBit b n → a.bit i = b.bit i) ∧
    (a.firstDifferentBit b n = n ∨
      a.bit (a.firstDifferentBit b n) ≠ b.bit (a.firstDifferentBit b n)) := by
  obtain ⟨h1, h2⟩ := fdbLoop_spec a.bits b.bits n 0 0 ha hb (by omega) (Or.inr ⟨rfl, rfl⟩)
  unfold firstDifferentBit
  simp only [bit_eq_listBit]
  set d := fdbLoop a.bits b.bits n 0 0 with hd
  rcases lt_or_ge n d with h | h
  · rw [if_pos h]
    refine ⟨le_refl n, fun i hi => h1 i (by omega) hi, Or.inl rfl⟩
  · rw [if_neg (by omega)]
    refine ⟨h, fun i hi => h1 i hi (by omega), ?_⟩
    rcases h2 with h2 | h2
    · exact Or.inl (by omega)
    · exact Or.inr h2

/-- Two byte values are equal iff their low eight bits agree. -/
lemma byte_eq_iff {x y : Nat} (hx : x < 256) (hy : y < 256) :
    x = y ↔ ∀ t, t < 8 → Nat.testBit x t = Nat.testBit y t := by
  constructor
  · rintro rfl _ _
    rfl
  · intro h
    apply Nat.eq_of_testBit_eq
    intro t
    rcases lt_or_ge t 8 with ht | ht
    · exact h t ht
    · have hpow : (256 : Nat) ≤ 2 ^ t := by
        calc (256 : Nat) = 2 ^ 8 := by norm_num
        _ ≤ 2 ^ t := Nat.pow_le_pow_right (by norm_num) ht
      rw [Nat.testBit_lt_two_pow (lt_of_lt_of_le hx hpow),
        Nat.testBit_lt_two_pow (lt_of_lt_of_le hy hpow)]

lemma mask_testBit_lt8 : ∀ off, off < 8 → 0 < off → ∀ t, t < 8 →
    Nat.testBit (256 - 2 ^ (8 - off)) t = decide (8 - off ≤ t) := by
  decide

/-- Equality of mask-truncated bytes says exactly that the top `off` bits
(MSB-first) agree. -/
lemma and_mask_eq_iff {x y off : Nat} (hx : x < 256) (hy : y < 256)
    (h1 : 0 < off) (h2 : off < 8) :
    (x &&& (256 - 2 ^ (8 - off)) = y &&& (256 - 2 ^ (8 - off))) ↔
      ∀ t, 8 - off ≤ t → t < 8 → Nat.testBit x t = Nat.testBit y t := by
  set m := 256 - 2 ^ (8 - off) with hm
  have hp : (0 : Nat) < 2 ^ (8 - off) := Nat.pos_pow_of_pos _ (by norm_num)
  have hple : 2 ^ (8 - off) ≤ 256 := by
    calc 2 ^ (8 - off) ≤ 2 ^ 8 := Nat.pow_le_pow_right (by norm_num) (by omega)
    _ = 256 := by norm_num
  have hmlt : m < 256 := by omega
  have hmbit : ∀ t, Nat.testBit m t = decide (8 - off ≤ t ∧ t < 8) := by
    intro t
    rcases lt_or_ge t 8 with ht | ht
    · rw [mask_testBit_lt8 off h2 h1 t ht]
      by_cases hA : 8 - off ≤ t <;> simp [hA, ht]
    · have hpow : (256 : Nat) ≤ 2 ^ t := by
        calc (256 : Nat) = 2 ^ 8 := by norm_num
        _ ≤ 2 ^ t := Nat.pow_le_pow_right (by norm_num) ht
      rw [Nat.testBit_lt_two_pow (lt_of_lt_of_le hmlt hpow)]
      simp
      omega
  constructor
  · intro h t ht1 ht2
    have := congrArg (fun z => Nat.testBit z t) h
    simp only [Nat.testBit_and, hmbit] at this
    simpa [ht1, ht2] using this
  · intro h
    apply Nat.eq_of_testBit_eq
    intro t
    simp only [Nat.testBit_and, hmbit]
    by_cases hc : 8 - off ≤ t ∧ t < 8
    · rw [decide_eq_true hc, Bool.and_true, Bool.and_true]
      exact h t hc.1 hc.2
    · rw [decide_eq_false hc, Bool.and_false, Bool.and_false]

lemma take_eq_iff_getD {xs ys : List Nat} {m : Nat} (hx : m ≤ xs.length)
    (hy : m ≤ ys.length) :
    xs.take m = ys.take m ↔ ∀ j, j < m → xs.getD j 0 = ys.getD j 0 := by
  constructor
  · intro h j hj
    rw [List.getD_eq_getElem _ _ (by omega), List.getD_eq_getElem _ _ (by omega)]
    have h1 : j < (xs.take m).length := by rw [List.length_take]; omega
    have h2 : j < (ys.take m).length := by rw [List.length_take]; omega
    have := List.getElem_of_eq h h1
    simpa [List.getElem_take] using this
  · intro h
    apply List.ext_getElem (by rw [List.length_take, List.length_take]; omega)
    intro j h1 h2
    simp only [List.getElem_take]
    have hj : j < m := by rw [List.length_take] at h1; omega
    have := h j hj
    rw [List.getD_eq_getElem _ _ (show j < xs.length by omega)] at this
    rw [List.getD_eq_getElem _ _ (show j < ys.length by omega)] at this
    exact this

/-- Decomposition of bitwise agreement on the first `k` bits into whole-byte
equality plus masked agreement in the last partial byte. -/
lemma bitsAgree_iff_bytes (xs ys : List Nat) (hx : ∀ x ∈ xs, x < 256)
    (hy : ∀ y ∈ ys, y < 256) (k : Nat) :
    (∀ i, i < k → listBit xs i = listBit ys i) ↔
      ((∀ j, j < k / 8 → xs.getD j 0 = ys.getD j 0) ∧
        (k % 8 ≠ 0 → ∀ t, 8 - k % 8 ≤ t → t < 8 →
          Nat.testBit (xs.getD (k / 8) 0) t = Nat.testBit (ys.getD (k / 8) 0) t)) := by
  constructor
  · intro hbits
    constructor
    · intro j hj
      refine (byte_eq_iff (getD_lt_256 hx j) (getD_lt_256 hy j)).mpr ?_
      intro t ht
      have hp := hbits (8 * j + (7 - t)) (by omega)
      have hdiv : (8 * j + (7 - t)) / 8 = j := by omega
      have hmod : 7 - (8 * j + (7 - t)) % 8 = t := by omega
      simpa only [listBit, hdiv, hmod] using hp
    · intro hoff t ht8 ht
      have hp := hbits (8 * (k / 8) + (7 - t)) (by omega)
      have hdiv : (8 * (k / 8) + (7 - t)) / 8 = k / 8 := by omega
      have hmod : 7 - (8 * (k / 8) + (7 - t)) % 8 = t := by omega
      simpa only [listBit, hdiv, hmod] using hp
  · rintro ⟨hbytes, hmask⟩ i hik
    have hd : i / 8 < k / 8 ∨ (i / 8 = k / 8 ∧ i % 8 < k % 8) := by omega
    rcases hd with hd | ⟨hd, hm⟩
    · exact listBit_byte_eq (hbytes _ hd) rfl
    · have := hmask (by omega) (7 - i % 8) (by omega) (by omega)
      simpa only [listBit, hd] using this

/-- The C5 contract of `BitArray::compareBits`: true iff both strings are at
least `nbits` long and agree on their first `nbits` bits. -/
theorem compareBits_spec (a b : BitArray N) (k : Nat) (ha : a.WF) (hb : b.WF) :
    (a.compareBits b k = true) ↔
      (k ≤ a.bitCount ∧ k ≤ b.bitCount ∧ ∀ i, i < k → a.bit i = b.bit i) := by
  obtain ⟨haN, ha256, haLen⟩ := ha
  obtain ⟨hbN, hb256, hbLen⟩ := hb
  unfold compareBits
  split
  next hc =>
    simp only [Bool.false_eq_true, false_iff]
    rintro ⟨hk1, hk2, -⟩
    simp only [gt_iff_lt, Bool.or_eq_true, decide_eq_true_eq] at hc
    omega
  next hc =>
    simp only [gt_iff_lt, Bool.or_eq_true, decide_eq_true_eq, not_or, not_lt] at hc
    obtain ⟨h1, h2⟩ := hc
    have hkN : k ≤ 8 * N := le_trans h1 haLen
    have hlenx : k / 8 ≤ a.bits.length := by omega
    have hleny : k / 8 ≤ b.bits.length := by omega
    simp only [h1, h2, true_and]
    simp only [bit_eq_listBit]
    rw [bitsAgree_iff_bytes a.bits b.bits ha256 hb256 k]
    rw [← take_eq_iff_getD hlenx hleny]
    split
    next hne =>
      simp only [Bool.false_eq_true, false_iff]
      rintro ⟨he, -⟩
      exact hne he
    next hne =>
      rw [not_not] at hne
      simp only [hne, true_and]
      split
      next hoff =>
        rw [beq_iff_eq,
          and_mask_eq_iff (getD_lt_256 ha256 _) (getD_lt_256 hb256 _)
            (by omega) (by omega)]
        constructor
        · intro h _
          exact h
        · intro h
          exact h hoff
      next hoff =>
        simp only [true_iff]
        intro hcon
        exact absurd hcon hoff

lemma tail_getD (xs : List Nat) (j : Nat) : xs.tail.getD j 0 = xs.getD (j + 1) 0 := by
  cases xs <;> rfl

lemma headD_eq_getD (xs : List Nat) : xs.headD 0 = xs.getD 0 0 := by
  cases xs <;> rfl

/-- Characterization of a negative `strncmp` verdict: some position `i` below
`n` has a smaller left byte, and all earlier positions hold equal nonzero
bytes (C-string semantics: a common zero byte stops the comparison). -/
theorem strncmpBytes_neg_iff : ∀ (n : Nat) (xs ys : List Nat),
    (strncmpBytes xs ys n < 0) ↔
      ∃ i, i < n ∧ (∀ j, j < i → xs.getD j 0 = ys.getD j 0 ∧ xs.getD j 0 ≠ 0) ∧
        xs.getD i 0 < ys.getD i 0 := by
  intro n
  induction n with
  | zero =>
    intro xs ys
    rw [show strncmpBytes xs ys 0 = (0 : Int) from rfl]
    constructor
    · intro h
      omega
    · rintro ⟨i, hi, -, -⟩
      omega
  | succ n ih =>
    intro xs ys
    rw [strncmpBytes]
    simp only [headD_eq_getD]
    split
    next hne =>
      constructor
      · intro h
        refine ⟨0, by omega, by omega, by omega⟩
      · rintro ⟨i, hi, hpre, hlt⟩
        rcases Nat.eq_zero_or_pos i with rfl | hpos
        · omega
        · exact absurd (hpre 0 hpos).1 hne
    next hne =>
      rw [not_not] at hne
      split
      next hz =>
        constructor
        · intro h
          omega
        · rintro ⟨i, hi, hpre, hlt⟩
          rcases Nat.eq_zero_or_pos i with rfl | hpos
          · omega
          · exact absurd hz (hpre 0 hpos).2
      next hz =>
        rw [ih]
        constructor
        · rintro ⟨i, hi, hpre, hlt⟩
          refine ⟨i + 1, by omega, ?_, ?_⟩
          · intro j hj
            rcases Nat.eq_zero_or_pos j with rfl | hpos
            · exact ⟨hne, hz⟩
            · have := hpre (j - 1) (by omega)
              rw [tail_getD, tail_getD] at this
              have hj1 : j - 1 + 1 = j := by omega
              rwa [hj1] at this
          · rwa [tail_getD, tail_getD] at hlt
        · rintro ⟨i, hi, hpre, hlt⟩
          rcases Nat.eq_zero_or_pos i with rfl | hpos
          · omega
          · refine ⟨i - 1, by omega, ?_, ?_⟩
            · intro j hj
              rw [tail_getD, tail_getD]
              exact hpre (j + 1) (by omega)
            · rw [tail_getD, tail_getD]
              have hi1 : i - 1 + 1 = i := by omega
              rwa [hi1]

/-- Plain lexicographic comparison of byte lists; this follows the words of
the specification ("byte content lexicographically smaller"), for comparison
with the `strncmp`-based implementation. -/
def bytesLexLt : List Nat → List Nat → Bool
  | _, [] => false
  | [], _ :: _ => true
  | x :: xs, y :: ys => if x < y then true else if y < x then false else bytesLexLt xs ys

end BitArray

/-- A node of `BinaryTrie<N, T>` (the `Node` struct of src/bintrie.h).
The `nid` field models the node's address: every `new` hands out a fresh id.
`key.bitCount = 0` encodes a glue node, otherwise the node is a data node.
The C++ `parent` pointer is not a field: it is represented by the zipper
contexts below, which carry the same information for a tree. -/
inductive TrieNode (N : Nat) (T : Type) : Type where
  | node (nid : Nat) (key : BitArray N) (bits : Nat) (data : T)
      (left : Option (TrieNode N T)) (right : Option (TrieNode N T)) : TrieNode N T

namespace TrieNode

variable {N : Nat} {T : Type}

def nid : TrieNode N T → Nat
  | .node i _ _ _ _ _ => i

def key : TrieNode N T → BitArray N
  | .node _ k _ _ _ _ => k

def bits : TrieNode N T → Nat
  | .node _ _ b _ _ _ => b

def data : TrieNode N T → T
  | .node _ _ _ d _ _ => d

def left : TrieNode N T → Option (TrieNode N T)
  | .node _ _ _ _ l _ => l

def right : TrieNode N T → Option (TrieNode N T)
  | .node _ _ _ _ _ r => r

/-- Assignment `node->key = k`. -/
def setKey : TrieNode N T → BitArray N → TrieNode N T
  | .node i _ b d l r, k => .node i k b d l r

/-- Assignment `node->left = l`. -/
def setLeft : TrieNode N T → Option (TrieNode N T) → TrieNode N T
  | .node i k b d _ r, l => .node i k b d l r

/-- Assignment `node->right = r`. -/
def setRight : TrieNode N T → Option (TrieNode N T) → TrieNode N T
  | .node i k b d l _, r => .node i k b d l r

/-- All nodes of the subtree rooted here (the node graph owned by this
pointer). -/
def nodesOf : TrieNode N T → List (TrieNode N T)
  | .node i k b d l r =>
    .node i k b d l r ::
      ((match l with | none => [] | some lc => nodesOf lc) ++
        (match r with | none => [] | some rc => nodesOf rc))

/-- Number of nodes in the subtree. -/
def count : TrieNode N T → Nat
  | .node _ _ _ _ l r =>
    1 + (match l with | none => 0 | some lc => count lc) +
      (match r with | none => 0 | some rc => count rc)

/-- Ids of the subtree as a multiset (models the set of live heap
addresses). -/
def idsOf : TrieNode N T → Multiset Nat
  | .node i _ _ _ l r =>
    i ::ₘ ((match l with | none => 0 | some lc => idsOf lc) +
      (match r with | none => 0 | some rc => idsOf rc))

end TrieNode

/-- Nodes of an optional subtree. -/
def nodesO {N : Nat} {T : Type} : Option (TrieNode N T) → List (TrieNode N T)
  | none => []
  | some n => n.nodesOf

/-- Node count of an optional subtree. -/
def countO {N : Nat} {T : Type} : Option (TrieNode N T) → Nat
  | none => 0
  | some n => n.count

/-- Ids of an optional subtree. -/
def idsO {N : Nat} {T : Type} : Option (TrieNode N T) → Multiset Nat
  | none => 0
  | some n => n.idsOf

/-- One zipper context: the fields of an ancestor node minus the child slot we
descended into (`cdir`: `true` for right).  `plugOne` below restores the
ancestor.  This models the C++ `parent` pointer chain. -/
structure TrieCtx (N : Nat) (T : Type) where
  cid : Nat
  ckey : BitArray N
  cbits : Nat
  cdata : T
  cdir : Bool
  cother : Option (TrieNode N T)

namespace TrieCtx

variable {N : Nat} {T : Type}

/-- Rebuild the ancestor node from a context and the subtree in the descended
slot. -/
def plugOne (c : TrieCtx N T) (t : Option (TrieNode N T)) : TrieNode N T :=
  if c.cdir then .node c.cid c.ckey c.cbits c.cdata c.cother t
  else .node c.cid c.ckey c.cbits c.cdata t c.cother

end TrieCtx

/-- Plug a subtree back through a full ancestor path (innermost context
first), recovering the tree root. -/
def plug {N : Nat} {T : Type} : List (TrieCtx N T) → Option (TrieNode N T) → Option (TrieNode N T)
  | [], t => t
  | c :: rest, t => plug rest (some (c.plugOne t))

/-- The state of a `BinaryTrie<N, T>`: the owned node graph, the node counter
`numNodes`, and the allocation counter `nextId` modelling the heap (every
`new Node` returns `nextId` as its address). -/
structure BinaryTrie (N : Nat) (T : Type) where
  root : Option (TrieNode N T)
  numNodes : Nat
  nextId : Nat

namespace BinaryTrie

variable {N : Nat} {T : Type}

/-- The default constructor `BinaryTrie() : root(NULL), numNodes(0)`. -/
def mkEmpty : BinaryTrie N T := ⟨none, 0, 0⟩

/-- `BinaryTrie::empty()`. -/
def empty (t : BinaryTrie N T) : Bool := t.root.isNone

/-- `BinaryTrie::size()`. -/
def size (t : BinaryTrie N T) : Nat := t.numNodes

/-- All nodes currently owned by the trie. -/
def trieNodes (t : BinaryTrie N T) : List (TrieNode N T) := nodesO t.root

/-- Ids of all nodes currently owned by the trie. -/
def trieIds (t : BinaryTrie N T) : Multiset Nat := idsO t.root

/-- The descent loop of `BinaryTrie::lookupNode`: walk to the nearest data
node, following `key[node->bits]`, while `node->bits < bitLen ||
node->key.empty()`, stopping early when the chosen link is null.  Returns the
stop node and the path of ancestors passed (innermost first). -/
def descend (key : BitArray N) : TrieNode N T → List (TrieCtx N T) →
    TrieNode N T × List (TrieCtx N T)
  | .node i k b d l r, path =>
    if b < key.bitCount || k.bitCount == 0 then
      if key.bit b then
        match r with
        | none => (.node i k b d l r, path)
        | some rc => descend key rc (⟨i, k, b, d, true, l⟩ :: path)
      else
        match l with
        | none => (.node i k b d l r, path)
        | some lc => descend key lc (⟨i, k, b, d, false, r⟩ :: path)
    else (.node i k b d l r, path)

/-- The walk-back loop of `BinaryTrie::lookupNode`:
`while (parent && parent->bits >= diffBit) node = parent`.  Moving to the
parent plugs the current node back into its context. -/
def walkBack (diffBit : Nat) : TrieNode N T → List (TrieCtx N T) →
    TrieNode N T × List (TrieCtx N T)
  | node, [] => (node, [])
  | node, c :: rest =>
    if diffBit ≤ c.cbits then walkBack diffBit (c.plugOne (some node)) rest
    else (node, c :: rest)

/-- `BinaryTrie::lookupNode` (the insert-or-get workhorse behind
`operator[]`).  Returns the updated trie together with the id of the node
whose `data` reference the C++ function returns. -/
def lookupNode [Inhabited T] (t : BinaryTrie N T) (key : BitArray N) :
    BinaryTrie N T × Nat :=
  match t.root with
  | none =>
    -- create the root data node
    let node : TrieNode N T := .node t.nextId key key.bitCount default none none
    (⟨some node, t.numNodes + 1, t.nextId + 1⟩, t.nextId)
  | some rt =>
    let bitLen := key.bitCount
    let dp := descend key rt []
    let stopNode := dp.1
    let tmpKey := stopNode.key
    let checkBit := if stopNode.bits < bitLen then stopNode.bits else bitLen
    let diffBit := key.firstDifferentBit stopNode.key checkBit
    let wb := walkBack diffBit stopNode dp.2
    let node := wb.1
    let path := wb.2
    if diffBit == bitLen && node.bits == bitLen then
      -- exact hit; promote a glue node by installing the key
      let node' := if node.key.bitCount == 0 then node.setKey key else node
      (⟨plug path (some node'), t.numNodes, t.nextId⟩, node.nid)
    else if node.bits == diffBit then
      -- put newNode after current node
      let newNode : TrieNode N T := .node t.nextId key key.bitCount default none none
      let node' := if key.bit node.bits then node.setRight (some newNode)
        else node.setLeft (some newNode)
      (⟨plug path (some node'), t.numNodes + 1, t.nextId + 1⟩, t.nextId)
    else if bitLen == diffBit then
      -- put newNode before current node
      let newNode : TrieNode N T :=
        if tmpKey.bit bitLen then .node t.nextId key key.bitCount default none (some node)
        else .node t.nextId key key.bitCount default (some node) none
      (⟨plug path (some newNode), t.numNodes + 1, t.nextId + 1⟩, t.nextId)
    else
      -- put newNode next to current node, under a fresh glue node
      let newNode : TrieNode N T := .node t.nextId key key.bitCount default none none
      let glue : TrieNode N T :=
        if key.bit diffBit then
          .node (t.nextId + 1) default diffBit default (some node) (some newNode)
        else
          .node (t.nextId + 1) default diffBit default (some newNode) (some node)
      (⟨plug path (some glue), t.numNodes + 2, t.nextId + 2⟩, t.nextId)

/-- The descent loop of `BinaryTrie::searchExact`, keeping the zipper path so
`erase` can edit in place.  Returns `none` when a null link is hit or the
terminal node fails the exactness checks. -/
def searchExactAux (key : BitArray N) : TrieNode N T → List (TrieCtx N T) →
    Option (TrieNode N T × List (TrieCtx N T))
  | .node i k b d l r, path =>
    if b < key.bitCount then
      if key.bit b then
        match r with
        | none => none
        | some rc => searchExactAux key rc (⟨i, k, b, d, true, l⟩ :: path)
      else
        match l with
        | none => none
        | some lc => searchExactAux key lc (⟨i, k, b, d, false, r⟩ :: path)
    else
      if b > key.bitCount || k.bitCount == 0 then none
      else if key.compareBits k key.bitCount then some (.node i k b d l r, path)
      else none

/-- `BinaryTrie::searchExact`. -/
def searchExact (t : BinaryTrie N T) (key : BitArray N) : Option (TrieNode N T) :=
  match t.root with
  | none => none
  | some rt => (searchExactAux key rt []).map (fun p => p.1)

/-- The descent loop of `BinaryTrie::searchBest`: walk while
`node->bits < key.size()`, pushing the data nodes met on the way (head of the
list = top of the stack), and finally push the terminal data node. -/
def bestDescend (key : BitArray N) : TrieNode N T → List (TrieNode N T) →
    List (TrieNode N T)
  | .node i k b d l r, stack =>
    if b < key.bitCount then
      let stack' := if k.bitCount ≠ 0 then (.node i k b d l r) :: stack else stack
      if key.bit b then
        match r with
        | none => stack'
        | some rc => bestDescend key rc stack'
      else
        match l with
        | none => stack'
        | some lc => bestDescend key lc stack'
    else
      if k.bitCount ≠ 0 then (.node i k b d l r) :: stack else stack

/-- The pop loop of `BinaryTrie::searchBest`: first stack entry (deepest
node) whose key's `node->key.size()` first bits match the search key. -/
def bestPop (key : BitArray N) : List (TrieNode N T) → Option (TrieNode N T)
  | [] => none
  | n :: rest =>
    if key.compareBits n.key n.key.bitCount && decide (n.key.bitCount ≤ key.bitCount)
    then some n
    else bestPop key rest

/-- `BinaryTrie::searchBest`. -/
def searchBest (t : BinaryTrie N T) (key : BitArray N) : Option (TrieNode N T) :=
  match t.root with
  | none => none
  | some rt => bestPop key (bestDescend key rt [])

/-- `BinaryTrie::removeNode`, acting on the zipper position of the node to
remove.  Returns the updated trie and the list of freed node ids, in the
order the `delete` statements execute. -/
def removeNode (t : BinaryTrie N T) (node : TrieNode N T)
    (path : List (TrieCtx N T)) : BinaryTrie N T × List Nat :=
  match hl : node.left, hr : node.right with
  | some _, some _ =>
    -- two children: demote to glue by clearing the key
    (⟨plug path (some (node.setKey default)), t.numNodes, t.nextId⟩, [])
  | none, none =>
    -- leaf: unlink from parent and delete
    match path with
    | [] =>
      -- last node: the source deletes `node` a second time here
      (⟨none, t.numNodes - 1, t.nextId⟩, [node.nid, node.nid])
    | c :: rest =>
      if c.ckey.bitCount == 0 then
        -- glue parent left with a single child: splice sibling up, delete it
        (⟨plug rest c.cother, t.numNodes - 2, t.nextId⟩, [node.nid, c.cid])
      else
        (⟨plug rest (some (c.plugOne none)), t.numNodes - 1, t.nextId⟩, [node.nid])
  | some lc, none =>
    -- one child: replace node by the child in the parent link
    (⟨plug path (some lc), t.numNodes - 1, t.nextId⟩, [node.nid])
  | none, some rc =>
    (⟨plug path (some rc), t.numNodes - 1, t.nextId⟩, [node.nid])

/-- `BinaryTrie::erase`: exact search, then `removeNode`; the third component
is `false` when the function instead throws (`NotFound`), in which case the
trie is returned as it was. -/
def erase (t : BinaryTrie N T) (key : BitArray N) :
    BinaryTrie N T × List Nat × Bool :=
  match t.root with
  | none => (t, [], false)
  | some rt =>
    match searchExactAux key rt [] with
    | none => (t, [], false)
    | some (node, path) =>
      let r := removeNode t node path
      (r.1, r.2, true)

/-- The iterative deletion loop of `BinaryTrie::clear`, with its explicit
stack; returns the ids freed, in deletion order. -/
def clearLoop : TrieNode N T → List (TrieNode N T) → List Nat → List Nat
  | .node i _ _ _ l r, stk, freed =>
    let freed' := freed ++ [i]
    match l, r with
    | some lc, some rc => clearLoop lc (rc :: stk) freed'
    | some lc, none => clearLoop lc stk freed'
    | none, some rc => clearLoop rc stk freed'
    | none, none =>
      match stk with
      | top :: rest => clearLoop top rest freed'
      | [] => freed'
termination_by n stk _ => n.count + (stk.map TrieNode.count).sum
decreasing_by
  all_goals simp only [TrieNode.count, List.map_cons, List.sum_cons]
  all_goals omega

/-- `BinaryTrie::clear`: frees every node with the iterative walk and resets
`numNodes` (only when the trie was non-empty, exactly as the source). The
source never assigns `root = NULL`, so the root pointer is left in place,
now referring to the freed node graph; the model keeps `root` unchanged
accordingly. -/
def clear (t : BinaryTrie N T) : BinaryTrie N T × List Nat :=
  match t.root with
  | none => (t, [])
  | some rt => (⟨some rt, 0, t.nextId⟩, clearLoop rt [] [])

end BinaryTrie

section TrieInvariant

variable {N : Nat} {T : Type}

/-- A data node: spec §3.2, a node whose key is non-empty. -/
def DataN (n : TrieNode N T) : Prop := n.key.bitCount ≠ 0

/-- The stored key of `m` is exactly `q`: same length and same bits. -/
def ExactFor (m : TrieNode N T) (q : BitArray N) : Prop :=
  m.key.bitCount = q.bitCount ∧ ∀ i, i < q.bitCount → m.key.bit i = q.bit i

/-- The stored key of `m` is a prefix of `q`: stored length at most `q.len`
and the first stored-length bits equal. -/
def PrefixFor (m : TrieNode N T) (q : BitArray N) : Prop :=
  m.key.bitCount ≤ q.bitCount ∧ ∀ i, i < m.key.bitCount → m.key.bit i = q.bit i

/-- The key agrees with the constraint function `g` on all bits below `d`. -/
def agreesUpTo (k : BitArray N) (g : Nat → Bool) (d : Nat) : Prop :=
  ∀ i, i < d → k.bit i = g i

/-- Point update of a constraint function. -/
def updBit (g : Nat → Bool) (p : Nat) (v : Bool) : Nat → Bool :=
  fun i => if i = p then v else g i

/-- The structural invariant of a subtree, relative to an inherited bit
constraint: `f` fixes the bits below `d` of every stored key in the subtree.
The existential `g` extends the constraint to the node's own discriminator
depth (the bits the Patricia structure skipped).  It packages, per node:
depths increase strictly downward and stay within `N·8`; data nodes have
`key.len = bits` and their key realizes the constraint; glue nodes of
positive depth have both children (a glue node of depth 0, which only the
empty-key insertion anomaly creates, may be deficient and can only sit at
the root); each child is constrained additionally by the branching bit. -/
def TrieInv (f : Nat → Bool) (d : Nat) : TrieNode N T → Prop
  | .node _ k b _ l r =>
    ∃ g : Nat → Bool,
      (∀ i, i < d → g i = f i) ∧
      d ≤ b ∧ b ≤ 8 * N ∧ k.WF ∧
      (k.bitCount ≠ 0 → k.bitCount = b ∧ agreesUpTo k g b) ∧
      (k.bitCount = 0 → 0 < b → l.isSome ∧ r.isSome) ∧
      (match l with
        | none => True
        | some lc => TrieInv (updBit g b false) (b + 1) lc) ∧
      (match r with
        | none => True
        | some rc => TrieInv (updBit g b true) (b + 1) rc)

/-- The invariant of a whole (possibly empty) tree. -/
def TrieInvO (o : Option (TrieNode N T)) : Prop :=
  ∀ n, o = some n → TrieInv (fun _ => false) 0 n

lemma TrieInv_node {f : Nat → Bool} {d : Nat} {i : Nat} {k : BitArray N} {b : Nat}
    {dd : T} {l r : Option (TrieNode N T)} :
    TrieInv f d (TrieNode.node i k b dd l r) ↔
      ∃ g : Nat → Bool,
        (∀ j, j < d → g j = f j) ∧
        d ≤ b ∧ b ≤ 8 * N ∧ k.WF ∧
        (k.bitCount ≠ 0 → k.bitCount = b ∧ agreesUpTo k g b) ∧
        (k.bitCount = 0 → 0 < b → l.isSome ∧ r.isSome) ∧
        (∀ lc, l = some lc → TrieInv (updBit g b false) (b + 1) lc) ∧
        (∀ rc, r = some rc → TrieInv (updBit g b true) (b + 1) rc) := by
  rw [TrieInv]
  constructor
  · rintro ⟨g, h1, h2, h3, h4, h5, h6, h7, h8⟩
    refine ⟨g, h1, h2, h3, h4, h5, h6, ?_, ?_⟩
    · intro lc hlc
      rw [hlc] at h7
      exact h7
    · intro rc hrc
      rw [hrc] at h8
      exact h8
  · rintro ⟨g, h1, h2, h3, h4, h5, h6, h7, h8⟩
    refine ⟨g, h1, h2, h3, h4, h5, h6, ?_, ?_⟩
    · cases hl : l with
      | none => trivial
      | some lc => exact h7 lc hl
    · cases hr : r with
      | none => trivial
      | some rc => exact h8 rc hr

/-- The invariant only constrains `f` below `d`: it can be weakened to any
smaller depth and pointwise-equal constraint. -/
lemma TrieInv_mono {f f' : Nat → Bool} {d d' : Nat} {t : TrieNode N T}
    (h : TrieInv f d t) (hd : d' ≤ d) (hf : ∀ i, i < d' → f' i = f i) :
    TrieInv f' d' t := by
  cases t with
  | node i k b dd l r =>
    rw [TrieInv] at h ⊢
    obtain ⟨g, h1, h2, h3, h4, h5, h6, h7, h8⟩ := h
    exact ⟨g, fun i hi => (h1 i (by omega)).trans (hf i hi).symm,
      by omega, h3, h4, h5, h6, h7, h8⟩

lemma nodesOf_node (i : Nat) (k : BitArray N) (b : Nat) (dd : T)
    (l r : Option (TrieNode N T)) :
    (TrieNode.node i k b dd l r).nodesOf =
      TrieNode.node i k b dd l r :: (nodesO l ++ nodesO r) := by
  cases l <;> cases r <;> rfl

lemma count_node (i : Nat) (k : BitArray N) (b : Nat) (dd : T)
    (l r : Option (TrieNode N T)) :
    (TrieNode.node i k b dd l r).count = 1 + countO l + countO r := by
  cases l <;> cases r <;> rfl

lemma idsOf_node (i : Nat) (k : BitArray N) (b : Nat) (dd : T)
    (l r : Option (TrieNode N T)) :
    (TrieNode.node i k b dd l r).idsOf = i ::ₘ (idsO l + idsO r) := by
  cases l <;> cases r <;> rfl

lemma self_mem_nodesOf (t : TrieNode N T) : t ∈ t.nodesOf := by
  cases t with
  | node i k b dd l r =>
    rw [nodesOf_node]
    exact List.mem_cons_self _ _

lemma mem_nodesOf_left {t : TrieNode N T} {lc : TrieNode N T}
    (hl : t.left = some lc) {m : TrieNode N T} (hm : m ∈ lc.nodesOf) :
    m ∈ t.nodesOf := by
  cases t with
  | node i k b dd l r =>
    simp only [TrieNode.left] at hl
    subst hl
    rw [nodesOf_node]
    exact List.mem_cons_of_mem _ (List.mem_append_left _ hm)

lemma mem_nodesOf_right {t : TrieNode N T} {rc : TrieNode N T}
    (hr : t.right = some rc) {m : TrieNode N T} (hm : m ∈ rc.nodesOf) :
    m ∈ t.nodesOf := by
  cases t with
  | node i k b dd l r =>
    simp only [TrieNode.right] at hr
    subst hr
    rw [nodesOf_node]
    exact List.mem_cons_of_mem _ (List.mem_append_right _ hm)

lemma mem_nodesOf_elim {t m : TrieNode N T} (hm : m ∈ t.nodesOf) :
    m = t ∨ (∃ lc, t.left = some lc ∧ m ∈ lc.nodesOf) ∨
      (∃ rc, t.right = some rc ∧ m ∈ rc.nodesOf) := by
  cases t with
  | node i k b dd l r =>
    rw [nodesOf_node] at hm
    rcases List.mem_cons.mp hm with h | h
    · exact Or.inl h
    · rcases List.mem_append.mp h with h | h
      · refine Or.inr (Or.inl ?_)
        cases hl : l with
        | none => rw [hl] at h; simp [nodesO] at h
        | some lc => rw [hl] at h; exact ⟨lc, rfl, h⟩
      · refine Or.inr (Or.inr ?_)
        cases hr : r with
        | none => rw [hr] at h; simp [nodesO] at h
        | some rc => rw [hr] at h; exact ⟨rc, rfl, h⟩

/-- Discriminator depths do not decrease into a subtree. -/
lemma bits_le_of_mem {f : Nat → Bool} {d : Nat} :
    ∀ {t : TrieNode N T}, TrieInv f d t → ∀ {m : TrieNode N T}, m ∈ t.nodesOf →
      t.bits ≤ m.bits
  | .node i k b dd l r, h, m, hm => by
    rw [TrieInv_node] at h
    obtain ⟨g, h1, h2, h3, h4, h5, h6, h7, h8⟩ := h
    rcases mem_nodesOf_elim hm with rfl | ⟨lc, hl, hmem⟩ | ⟨rc, hr, hmem⟩
    · exact le_refl _
    · have hi := h7 lc hl
      have hb : lc.bits ≤ m.bits := bits_le_of_mem hi hmem
      cases lc with
      | node i2 k2 b2 dd2 l2 r2 =>
        rw [TrieInv_node] at hi
        obtain ⟨g2, _, hd2, _⟩ := hi
        simp only [TrieNode.bits] at hb hd2 ⊢
        omega
    · have hi := h8 rc hr
      have hb : rc.bits ≤ m.bits := bits_le_of_mem hi hmem
      cases rc with
      | node i2 k2 b2 dd2 l2 r2 =>
        rw [TrieInv_node] at hi
        obtain ⟨g2, _, hd2, _⟩ := hi
        simp only [TrieNode.bits] at hb hd2 ⊢
        omega

/-- The workhorse: every data node of an invariant subtree is well-formed,
has `key.len = bits`, and realizes the inherited constraint below `d`. -/
lemma TrieInv_data_agrees {f : Nat → Bool} {d : Nat} :
    ∀ {t : TrieNode N T}, TrieInv f d t → ∀ {m : TrieNode N T}, m ∈ t.nodesOf →
      m.key.bitCount ≠ 0 →
      m.key.WF ∧ m.key.bitCount = m.bits ∧ d ≤ m.bits ∧
        ∀ i, i < d → m.key.bit i = f i
  | .node i k b dd l r, h, m, hm, hdata => by
    rw [TrieInv_node] at h
    obtain ⟨g, h1, h2, h3, h4, h5, h6, h7, h8⟩ := h
    rcases mem_nodesOf_elim hm with rfl | ⟨lc, hl, hmem⟩ | ⟨rc, hr, hmem⟩
    · simp only [TrieNode.key, TrieNode.bits] at hdata ⊢
      obtain ⟨hkb, hagree⟩ := h5 hdata
      exact ⟨h4, hkb, h2, fun j hj => (hagree j (by omega)).trans (h1 j hj)⟩
    · obtain ⟨hwf, hkb, hd, hagree⟩ := TrieInv_data_agrees (h7 lc hl) hmem hdata
      refine ⟨hwf, hkb, by omega, ?_⟩
      intro j hj
      have := hagree j (by omega)
      rw [this]
      rw [updBit]
      rw [if_neg (by omega)]
      exact h1 j hj
    · obtain ⟨hwf, hkb, hd, hagree⟩ := TrieInv_data_agrees (h8 rc hr) hmem hdata
      refine ⟨hwf, hkb, by omega, ?_⟩
      intro j hj
      have := hagree j (by omega)
      rw [this]
      rw [updBit]
      rw [if_neg (by omega)]
      exact h1 j hj

/-- The invariant of a zipper path: the recorded ancestors satisfy their node
conditions, and the hole sits under constraint `(f, d)`.  The outermost
context is the last list entry; an empty path places the hole at the root
(`d = 0`). -/
def PathOK : List (TrieCtx N T) → (Nat → Bool) → Nat → Prop
  | [], _, d => d = 0
  | c :: rest, f, d =>
    ∃ (fp : Nat → Bool) (dp : Nat) (g : Nat → Bool),
      PathOK rest fp dp ∧
      (∀ i, i < dp → g i = fp i) ∧
      dp ≤ c.cbits ∧ c.cbits ≤ 8 * N ∧ c.ckey.WF ∧
      (c.ckey.bitCount ≠ 0 → c.ckey.bitCount = c.cbits ∧ agreesUpTo c.ckey g c.cbits) ∧
      (c.ckey.bitCount = 0 → 0 < c.cbits → c.cother.isSome) ∧
      (∀ oc, c.cother = some oc → TrieInv (updBit g c.cbits (!c.cdir)) (c.cbits + 1) oc) ∧
      d = c.cbits + 1 ∧
      (∀ i, i < d → f i = updBit g c.cbits c.cdir i)

lemma PathOK_zero {path : List (TrieCtx N T)} {f : Nat → Bool}
    (h : PathOK path f 0) : path = [] := by
  cases path with
  | nil => rfl
  | cons c rest =>
    obtain ⟨fp, dp, g, -, -, -, -, -, -, -, -, hd, -⟩ := h
    omega

/-- Plugging an invariant subtree through an invariant path yields an
invariant tree. -/
lemma plug_TrieInv : ∀ (path : List (TrieCtx N T)) (f : Nat → Bool) (d : Nat)
    (x : TrieNode N T), PathOK path f d → TrieInv f d x →
    TrieInvO (plug path (some x))
  | [], f, d, x, hp, hx => by
    intro n hn
    rw [plug] at hn
    cases hn
    have hd : d = 0 := hp
    subst hd
    exact TrieInv_mono hx (le_refl 0) (fun i hi => absurd hi (by omega))
  | c :: rest, f, d, x, hp, hx => by
    obtain ⟨fp, dp, g, hrest, hgfp, hdp, hb8, hwf, hdata, hglue, hoth, hd, hf⟩ := hp
    rw [plug]
    refine plug_TrieInv rest fp dp _ hrest ?_
    have hchild : TrieInv (updBit g c.cbits c.cdir) (c.cbits + 1) x := by
      refine TrieInv_mono hx (by omega) ?_
      intro i hi
      exact (hf i (by omega)).symm
    rw [TrieCtx.plugOne]
    split
    next hdir =>
      rw [TrieInv_node]
      refine ⟨g, hgfp, hdp, hb8, hwf, hdata, ?_, ?_, ?_⟩
      · intro h0 hb
        exact ⟨hglue h0 hb, rfl⟩
      · intro lc hlc
        have := hoth lc hlc
        rwa [hdir, Bool.not_true] at this
      · intro rc hrc
        cases hrc
        rwa [hdir] at hchild
    next hdir =>
      rw [TrieInv_node]
      have hdir' : c.cdir = false := by
        cases hcd : c.cdir
        · rfl
        · exact absurd hcd hdir
      refine ⟨g, hgfp, hdp, hb8, hwf, hdata, ?_, ?_, ?_⟩
      · intro h0 hb
        exact ⟨rfl, hglue h0 hb⟩
      · intro lc hlc
        cases hlc
        rwa [hdir'] at hchild
      · intro rc hrc
        have := hoth rc hrc
        rwa [hdir', Bool.not_false] at this

/-- Plugging a hole (null pointer) under a data-node context yields an
invariant tree: the pattern of the leaf case of `removeNode`. -/
lemma plug_none_TrieInv {c : TrieCtx N T} {rest : List (TrieCtx N T)}
    {f : Nat → Bool} {d : Nat} (hp : PathOK (c :: rest) f d)
    (hdata : c.ckey.bitCount ≠ 0) :
    TrieInvO (plug rest (some (c.plugOne none))) := by
  obtain ⟨fp, dp, g, hrest, hgfp, hdp, hb8, hwf, hdatac, hglue, hoth, hd, hf⟩ := hp
  refine plug_TrieInv rest fp dp _ hrest ?_
  rw [TrieCtx.plugOne]
  split
  next hdir =>
    rw [TrieInv_node]
    refine ⟨g, hgfp, hdp, hb8, hwf, hdatac, ?_, ?_, ?_⟩
    · intro h0
      exact absurd h0 hdata
    · intro lc hlc
      have := hoth lc hlc
      rwa [hdir, Bool.not_true] at this
    · intro rc hrc
      cases hrc
  next hdir =>
    have hdir' : c.cdir = false := by
      cases hcd : c.cdir
      · rfl
      · exact absurd hcd hdir
    rw [TrieInv_node]
    refine ⟨g, hgfp, hdp, hb8, hwf, hdatac, ?_, ?_, ?_⟩
    · intro h0
      exact absurd h0 hdata
    · intro lc hlc
      cases hlc
    · intro rc hrc
      have := hoth rc hrc
      rwa [hdir', Bool.not_false] at this

lemma mem_plugOne (c : TrieCtx N T) (o : Option (TrieNode N T))
    {x : TrieNode N T} (hx : x ∈ nodesO o) : x ∈ (c.plugOne o).nodesOf := by
  rw [TrieCtx.plugOne]
  split <;>
    (rw [nodesOf_node]
     refine List.mem_cons_of_mem _ ?_)
  · exact List.mem_append_right _ hx
  · exact List.mem_append_left _ hx

lemma mem_plug : ∀ (path : List (TrieCtx N T)) (o : Option (TrieNode N T))
    {x : TrieNode N T}, x ∈ nodesO o → x ∈ nodesO (plug path o)
  | [], o, x, hx => hx
  | c :: rest, o, x, hx => by
    rw [plug]
    exact mem_plug rest _ (mem_plugOne c o hx)

/-- Node count contributed by a path: each context is one node plus its
untaken subtree. -/
def pathCount (path : List (TrieCtx N T)) : Nat :=
  (path.map (fun c => 1 + countO c.cother)).sum

lemma count_plugOne (c : TrieCtx N T) (o : Option (TrieNode N T)) :
    (c.plugOne o).count = 1 + countO c.cother + countO o := by
  rw [TrieCtx.plugOne]
  split <;> rw [count_node] <;> omega

lemma countO_plug : ∀ (path : List (TrieCtx N T)) (o : Option (TrieNode N T)),
    countO (plug path o) = countO o + pathCount path
  | [], o => by
    rw [plug, pathCount]
    simp
  | c :: rest, o => by
    rw [plug, countO_plug rest]
    rw [show countO (some (c.plugOne o)) = (c.plugOne o).count from rfl, count_plugOne]
    simp only [pathCount, List.map_cons, List.sum_cons]
    omega

/-- Heap ids contributed by a path. -/
def pathIds (path : List (TrieCtx N T)) : Multiset Nat :=
  (path.map (fun c => c.cid ::ₘ idsO c.cother)).sum

lemma ids_plugOne (c : TrieCtx N T) (o : Option (TrieNode N T)) :
    (c.plugOne o).idsOf = c.cid ::ₘ (idsO c.cother + idsO o) := by
  rw [TrieCtx.plugOne]
  split <;> rw [idsOf_node] <;> first | rfl | rw [add_comm]

lemma idsO_plug : ∀ (path : List (TrieCtx N T)) (o : Option (TrieNode N T)),
    idsO (plug path o) = idsO o + pathIds path
  | [], o => by
    rw [plug, pathIds]
    simp
  | c :: rest, o => by
    rw [plug, idsO_plug rest]
    rw [show idsO (some (c.plugOne o)) = (c.plugOne o).idsOf from rfl, ids_plugOne]
    simp only [pathIds, List.map_cons, List.sum_cons]
    rw [← Multiset.singleton_add, ← Multiset.singleton_add]
    abel

lemma plugOne_bits (c : TrieCtx N T) (o : Option (TrieNode N T)) :
    (c.plugOne o).bits = c.cbits := by
  rw [TrieCtx.plugOne]
  split <;> rfl

lemma plugOne_key (c : TrieCtx N T) (o : Option (TrieNode N T)) :
    (c.plugOne o).key = c.ckey := by
  rw [TrieCtx.plugOne]
  split <;> rfl

lemma plugOne_nid (c : TrieCtx N T) (o : Option (TrieNode N T)) :
    (c.plugOne o).nid = c.cid := by
  rw [TrieCtx.plugOne]
  split <;> rfl

lemma plugOne_right (c : TrieCtx N T) (o : Option (TrieNode N T)) :
    (c.plugOne o).right = if c.cdir then o else c.cother := by
  rw [TrieCtx.plugOne]
  split <;> rfl

lemma plugOne_left (c : TrieCtx N T) (o : Option (TrieNode N T)) :
    (c.plugOne o).left = if c.cdir then c.cother else o := by
  rw [TrieCtx.plugOne]
  split <;> rfl

/-- One plugging step preserves the invariant: rebuilding the immediate
ancestor of an invariant subtree gives an invariant subtree under the
ancestor's inherited constraint. -/
lemma plugOne_TrieInv {c : TrieCtx N T} {rest : List (TrieCtx N T)}
    {f : Nat → Bool} {d : Nat} {x : TrieNode N T}
    (hp : PathOK (c :: rest) f d) (hx : TrieInv f d x) :
    ∃ (fp : Nat → Bool) (dp : Nat), PathOK rest fp dp ∧
      TrieInv fp dp (c.plugOne (some x)) := by
  obtain ⟨fp, dp, g, hrest, hgfp, hdp, hb8, hwf, hdata, hglue, hoth, hd, hf⟩ := hp
  refine ⟨fp, dp, hrest, ?_⟩
  have hchild : TrieInv (updBit g c.cbits c.cdir) (c.cbits + 1) x := by
    refine TrieInv_mono hx (by omega) ?_
    intro i hi
    exact (hf i (by omega)).symm
  rw [TrieCtx.plugOne]
  split
  next hdir =>
    rw [TrieInv_node]
    refine ⟨g, hgfp, hdp, hb8, hwf, hdata, ?_, ?_, ?_⟩
    · intro h0 hb
      exact ⟨hglue h0 hb, rfl⟩
    · intro lc hlc
      have := hoth lc hlc
      rwa [hdir, Bool.not_true] at this
    · intro rc hrc
      cases hrc
      rwa [hdir] at hchild
  next hdir =>
    have hdir' : c.cdir = false := by
      cases hcd : c.cdir
      · rfl
      · exact absurd hcd hdir
    rw [TrieInv_node]
    refine ⟨g, hgfp, hdp, hb8, hwf, hdata, ?_, ?_, ?_⟩
    · intro h0 hb
      exact ⟨rfl, hglue h0 hb⟩
    · intro lc hlc
      cases hlc
      rwa [hdir'] at hchild
    · intro rc hrc
      have := hoth rc hrc
      rwa [hdir', Bool.not_false] at this

lemma nodesOf_trans : ∀ {c a b : TrieNode N T},
    a ∈ b.nodesOf → b ∈ c.nodesOf → a ∈ c.nodesOf
  | .node i k bb dd l r, a, b, hab, hbc => by
    rcases mem_nodesOf_elim hbc with rfl | ⟨lc, hl, hmem⟩ | ⟨rc, hr, hmem⟩
    · exact hab
    · exact mem_nodesOf_left hl (nodesOf_trans hab hmem)
    · exact mem_nodesOf_right hr (nodesOf_trans hab hmem)

lemma descend_eq (q : BitArray N) (i : Nat) (k : BitArray N) (b : Nat) (dd : T)
    (l r : Option (TrieNode N T)) (path : List (TrieCtx N T)) :
    BinaryTrie.descend q (.node i k b dd l r) path =
      if b < q.bitCount || k.bitCount == 0 then
        if q.bit b then
          match r with
          | none => (.node i k b dd l r, path)
          | some rc => BinaryTrie.descend q rc (⟨i, k, b, dd, true, l⟩ :: path)
        else
          match l with
          | none => (.node i k b dd l r, path)
          | some lc => BinaryTrie.descend q lc (⟨i, k, b, dd, false, r⟩ :: path)
      else (.node i k b dd l r, path) := by
  rw [BinaryTrie.descend.eq_def]

/-- What the descent loop of `lookupNode` guarantees: the stop node and the
extended path are invariant, the path records the query's branching bits, the
tree is unchanged (plug identity), and the loop stopped either on a null
chosen link (with the loop condition holding) or at a data node at depth at
least the key length. -/
lemma descend_spec (q : BitArray N) :
    ∀ (t : TrieNode N T) (path : List (TrieCtx N T)) (f : Nat → Bool) (d : Nat),
      TrieInv f d t → PathOK path f d → (∀ c ∈ path, c.cdir = q.bit c.cbits) →
      ∃ (f' : Nat → Bool) (d' : Nat),
        TrieInv f' d' (BinaryTrie.descend q t path).1 ∧
        PathOK (BinaryTrie.descend q t path).2 f' d' ∧
        (∀ c ∈ (BinaryTrie.descend q t path).2, c.cdir = q.bit c.cbits) ∧
        plug (BinaryTrie.descend q t path).2 (some (BinaryTrie.descend q t path).1) =
          plug path (some t) ∧
        (((if q.bit (BinaryTrie.descend q t path).1.bits
            then (BinaryTrie.descend q t path).1.right
            else (BinaryTrie.descend q t path).1.left) = none ∧
            ((BinaryTrie.descend q t path).1.bits < q.bitCount ∨
              (BinaryTrie.descend q t path).1.key.bitCount = 0)) ∨
          (q.bitCount ≤ (BinaryTrie.descend q t path).1.bits ∧
            (BinaryTrie.descend q t path).1.key.bitCount ≠ 0))
  | .node i k b dd l r, path, f, d, h, hp, hdp => by
    rw [descend_eq]
    split
    next hcond =>
      simp only [Bool.or_eq_true, decide_eq_true_eq, beq_iff_eq] at hcond
      have hinv := h
      rw [TrieInv_node] at hinv
      obtain ⟨g, h1, h2, h3, h4, h5, h6, h7, h8⟩ := hinv
      split
      next hqb =>
        cases hr : r with
        | none =>
          subst hr
          refine ⟨f, d, h, hp, hdp, rfl, Or.inl ?_⟩
          simp only [TrieNode.bits, TrieNode.right, TrieNode.key]
          rw [if_pos hqb]
          exact ⟨rfl, hcond⟩
        | some rc =>
          subst hr
          have hrc : TrieInv (updBit g b true) (b + 1) rc := h8 rc rfl
          have hpath' : PathOK (⟨i, k, b, dd, true, l⟩ :: path) (updBit g b true) (b + 1) := by
            rw [PathOK]
            refine ⟨f, d, g, hp, h1, h2, h3, h4, h5,
              fun h0 hb => ((h6 h0 hb).1), ?_, rfl, fun j hj => rfl⟩
            intro oc hoc
            simpa using h7 oc hoc
          have hdp' : ∀ c ∈ (⟨i, k, b, dd, true, l⟩ : TrieCtx N T) :: path,
              c.cdir = q.bit c.cbits := by
            intro c hc
            rcases List.mem_cons.mp hc with rfl | hc
            · exact hqb.symm
            · exact hdp c hc
          obtain ⟨f', d', hI, hP, hD, hplug, hstop⟩ :=
            descend_spec q rc (⟨i, k, b, dd, true, l⟩ :: path) (updBit g b true) (b + 1)
              hrc hpath' hdp'
          exact ⟨f', d', hI, hP, hD, hplug.trans rfl, hstop⟩
      next hqb =>
        have hqb' : q.bit b = false := by
          cases hq : q.bit b
          · rfl
          · exact absurd hq hqb
        cases hl : l with
        | none =>
          subst hl
          refine ⟨f, d, h, hp, hdp, rfl, Or.inl ?_⟩
          simp only [TrieNode.bits, TrieNode.left, TrieNode.key]
          rw [if_neg (by simp [hqb'])]
          exact ⟨rfl, hcond⟩
        | some lc =>
          subst hl
          have hlc : TrieInv (updBit g b false) (b + 1) lc := h7 lc rfl
          have hpath' : PathOK (⟨i, k, b, dd, false, r⟩ :: path) (updBit g b false) (b + 1) := by
            rw [PathOK]
            refine ⟨f, d, g, hp, h1, h2, h3, h4, h5,
              fun h0 hb => ((h6 h0 hb).2), ?_, rfl, fun j hj => rfl⟩
            intro oc hoc
            simpa using h8 oc hoc
          have hdp' : ∀ c ∈ (⟨i, k, b, dd, false, r⟩ : TrieCtx N T) :: path,
              c.cdir = q.bit c.cbits := by
            intro c hc
            rcases List.mem_cons.mp hc with rfl | hc
            · exact hqb'.symm
            · exact hdp c hc
          obtain ⟨f', d', hI, hP, hD, hplug, hstop⟩ :=
            descend_spec q lc (⟨i, k, b, dd, false, r⟩ :: path) (updBit g b false) (b + 1)
              hlc hpath' hdp'
          exact ⟨f', d', hI, hP, hD, hplug.trans rfl, hstop⟩
    next hcond =>
      simp only [Bool.or_eq_true, decide_eq_true_eq, beq_iff_eq, not_or] at hcond
      refine ⟨f, d, h, hp, hdp, rfl, Or.inr ?_⟩
      simp only [TrieNode.bits, TrieNode.key]
      exact ⟨by omega, hcond.2⟩

/-- What the walk-back loop of `lookupNode` guarantees: the focused node
(rebuilt from the popped contexts) and the remaining path stay invariant, the
tree is unchanged, the focused node's depth is at least `db` while a remaining
parent's depth is below `db`, and the tracked `stop` node (the descent's stop
node) stays inside the focus — either nothing was popped, or `stop` lives in
the child of the focus on the query-bit side. -/
lemma walkBack_spec (q : BitArray N) (db : Nat) :
    ∀ (path : List (TrieCtx N T)) (node : TrieNode N T) (f : Nat → Bool) (d : Nat)
      (stop : TrieNode N T),
      TrieInv f d node → PathOK path f d → (∀ c ∈ path, c.cdir = q.bit c.cbits) →
      db ≤ node.bits → stop ∈ node.nodesOf →
      ∃ (f' : Nat → Bool) (d' : Nat),
        TrieInv f' d' (BinaryTrie.walkBack db node path).1 ∧
        PathOK (BinaryTrie.walkBack db node path).2 f' d' ∧
        (∀ c ∈ (BinaryTrie.walkBack db node path).2, c.cdir = q.bit c.cbits) ∧
        plug (BinaryTrie.walkBack db node path).2
            (some (BinaryTrie.walkBack db node path).1) = plug path (some node) ∧
        db ≤ (BinaryTrie.walkBack db node path).1.bits ∧
        stop ∈ (BinaryTrie.walkBack db node path).1.nodesOf ∧
        ((BinaryTrie.walkBack db node path).2 = [] ∨
          ∃ c rest, (BinaryTrie.walkBack db node path).2 = c :: rest ∧ c.cbits < db) ∧
        (((BinaryTrie.walkBack db node path).1 = node ∧
            (BinaryTrie.walkBack db node path).2 = path) ∨
          ∃ sub, (if q.bit (BinaryTrie.walkBack db node path).1.bits
              then (BinaryTrie.walkBack db node path).1.right
              else (BinaryTrie.walkBack db node path).1.left) = some sub ∧
            stop ∈ sub.nodesOf ∧ (BinaryTrie.walkBack db node path).1.bits < sub.bits)
  | [], node, f, d, stop, h, hp, hdp, hdb, hstop => by
    rw [BinaryTrie.walkBack]
    exact ⟨f, d, h, hp, hdp, rfl, hdb, hstop, Or.inl rfl, Or.inl ⟨rfl, rfl⟩⟩
  | c :: rest, node, f, d, stop, h, hp, hdp, hdb, hstop => by
    rw [BinaryTrie.walkBack]
    split
    next hle =>
      obtain ⟨fp, dp, hprest, hinv'⟩ := plugOne_TrieInv hp h
      have hdbits : d = c.cbits + 1 := by
        obtain ⟨fp', dp', g, -, -, -, -, -, -, -, -, hd, -⟩ := hp
        exact hd
      have hnodebits : c.cbits + 1 ≤ node.bits := by
        cases node with
        | node i2 k2 b2 dd2 l2 r2 =>
          rw [TrieInv_node] at h
          obtain ⟨g2, -, hd2, -⟩ := h
          simp only [TrieNode.bits]
          omega
      have hdp' : ∀ c' ∈ rest, c'.cdir = q.bit c'.cbits :=
        fun c' hc' => hdp c' (List.mem_cons_of_mem _ hc')
      have hdb' : db ≤ (c.plugOne (some node)).bits := by
        rw [plugOne_bits]
        exact hle
      have hstop' : stop ∈ (c.plugOne (some node)).nodesOf :=
        mem_plugOne c (some node) hstop
      obtain ⟨f', d', hI, hP, hD, hplug, hdbf, hstopf, hparent, hlast⟩ :=
        walkBack_spec q db rest (c.plugOne (some node)) fp dp stop hinv' hprest
          hdp' hdb' hstop'
      refine ⟨f', d', hI, hP, hD, hplug.trans rfl, hdbf, hstopf, hparent, ?_⟩
      rcases hlast with ⟨heq, hpeq⟩ | ⟨sub, hsub, hsubstop, hsubbits⟩
      · right
        refine ⟨node, ?_, hstop, ?_⟩
        · rw [heq]
          have hcd : c.cdir = q.bit c.cbits := hdp c (List.mem_cons_self _ _)
          rw [plugOne_bits, ← hcd]
          cases hcdv : c.cdir
          · rw [if_neg (by simp), plugOne_left, if_neg (by simp [hcdv])]
          · rw [if_pos rfl, plugOne_right, if_pos (by simp [hcdv])]
        · rw [heq, plugOne_bits]
          omega
      · exact Or.inr ⟨sub, hsub, hsubstop, hsubbits⟩
    next hle =>
      refine ⟨f, d, h, hp, hdp, rfl, hdb, hstop, ?_, Or.inl ⟨rfl, rfl⟩⟩
      right
      exact ⟨c, rest, rfl, by omega⟩

lemma default_bitCount : (default : BitArray N).bitCount = 0 := rfl

lemma default_WF : (default : BitArray N).WF := by
  refine ⟨List.length_replicate _ _, ?_, ?_⟩
  · intro x hx
    have := List.eq_of_mem_replicate hx
    omega
  · rw [default_bitCount]
    omega

lemma setKey_nid (t : TrieNode N T) (k : BitArray N) : (t.setKey k).nid = t.nid := by
  cases t
  rfl

lemma setKey_bits (t : TrieNode N T) (k : BitArray N) : (t.setKey k).bits = t.bits := by
  cases t
  rfl

lemma setKey_key (t : TrieNode N T) (k : BitArray N) : (t.setKey k).key = k := by
  cases t
  rfl

lemma setKey_count (t : TrieNode N T) (k : BitArray N) : (t.setKey k).count = t.count := by
  cases t with
  | node i k0 b dd l r =>
    rw [TrieNode.setKey, count_node, count_node]

lemma setKey_ids (t : TrieNode N T) (k : BitArray N) : (t.setKey k).idsOf = t.idsOf := by
  cases t with
  | node i k0 b dd l r =>
    rw [TrieNode.setKey, idsOf_node, idsOf_node]

/-- Strengthening: the inherited constraint of an invariant subtree may be
deepened up to the node's own discriminator depth, using any data node of the
subtree as the reference for the skipped bits. -/
lemma TrieInv_strengthen {f : Nat → Bool} {d : Nat} {t : TrieNode N T}
    (h : TrieInv f d t) {st : TrieNode N T} (hst : st ∈ t.nodesOf)
    (hstd : DataN st) {f3 : Nat → Bool} {d3 : Nat} (hd3 : d3 ≤ t.bits)
    (hagree : ∀ j, j < d3 → f3 j = st.key.bit j) :
    TrieInv f3 d3 t := by
  cases t with
  | node i k b dd l r =>
    rw [TrieInv_node] at h ⊢
    obtain ⟨g, h1, h2, h3, h4, h5, h6, h7, h8⟩ := h
    simp only [TrieNode.bits] at hd3
    have hkey : ∀ j, j < b → st.key.bit j = g j := by
      intro j hj
      rcases mem_nodesOf_elim hst with rfl | ⟨lc, hl, hmem⟩ | ⟨rc, hr, hmem⟩
      · exact (h5 hstd).2 j hj
      · have := (TrieInv_data_agrees (h7 lc hl) hmem hstd).2.2.2 j (by omega)
        rw [this, updBit, if_neg (by omega)]
      · have := (TrieInv_data_agrees (h8 rc hr) hmem hstd).2.2.2 j (by omega)
        rw [this, updBit, if_neg (by omega)]
    exact ⟨g, fun j hj => (hkey j (by omega)).symm.trans (hagree j hj).symm,
      hd3, h3, h4, h5, h6, h7, h8⟩

/-- The glue-promotion step of the exact-hit case of `lookupNode`: installing
a key that realizes the subtree's constraint turns a glue node into an
invariant data node. -/
lemma TrieInv_promote {f : Nat → Bool} {d : Nat} {t : TrieNode N T}
    (h : TrieInv f d t) (hglue : t.key.bitCount = 0) {st : TrieNode N T}
    (hst : st ∈ t.nodesOf) (hstd : DataN st) {q : BitArray N} (hqwf : q.WF)
    (hqb : q.bitCount = t.bits)
    (hagree : ∀ j, j < t.bits → q.bit j = st.key.bit j) :
    TrieInv f d (t.setKey q) := by
  cases t with
  | node i k b dd l r =>
    rw [TrieInv_node] at h
    obtain ⟨g, h1, h2, h3, h4, h5, h6, h7, h8⟩ := h
    simp only [TrieNode.bits] at hqb hagree
    simp only [TrieNode.key] at hglue
    have hkey : ∀ j, j < b → st.key.bit j = g j := by
      intro j hj
      rcases mem_nodesOf_elim hst with rfl | ⟨lc, hl, hmem⟩ | ⟨rc, hr, hmem⟩
      · exact absurd hglue hstd
      · have := (TrieInv_data_agrees (h7 lc hl) hmem hstd).2.2.2 j (by omega)
        rw [this, updBit, if_neg (by omega)]
      · have := (TrieInv_data_agrees (h8 rc hr) hmem hstd).2.2.2 j (by omega)
        rw [this, updBit, if_neg (by omega)]
    rw [TrieNode.setKey, TrieInv_node]
    refine ⟨g, h1, h2, h3, hqwf, ?_, ?_, h7, h8⟩
    · intro hq0
      exact ⟨hqb, fun j hj => (hagree j hj).trans (hkey j hj)⟩
    · intro hq0 hb
      exact h6 hglue hb

/-- Promotion at a depth-0 glue node with the empty key: the node stays glue
and the invariant is inert. -/
lemma TrieInv_promote_zero {f : Nat → Bool} {d : Nat} {t : TrieNode N T}
    (h : TrieInv f d t) (hglue : t.key.bitCount = 0) {q : BitArray N}
    (hqwf : q.WF) (hq0 : q.bitCount = 0) :
    TrieInv f d (t.setKey q) := by
  cases t with
  | node i k b dd l r =>
    rw [TrieInv_node] at h
    obtain ⟨g, h1, h2, h3, h4, h5, h6, h7, h8⟩ := h
    simp only [TrieNode.key] at hglue
    rw [TrieNode.setKey, TrieInv_node]
    refine ⟨g, h1, h2, h3, hqwf, ?_, ?_, h7, h8⟩
    · intro hq0'
      exact absurd hq0 hq0'
    · intro hq0' hb
      exact h6 hglue hb

/-- The descent loop never restructures the tree (no invariant needed). -/
lemma descend_plug (q : BitArray N) :
    ∀ (t : TrieNode N T) (path : List (TrieCtx N T)),
      plug (BinaryTrie.descend q t path).2 (some (BinaryTrie.descend q t path).1) =
        plug path (some t)
  | .node i k b dd l r, path => by
    rw [descend_eq]
    split
    next hcond =>
      split
      next hqb =>
        cases hr : r with
        | none => rfl
        | some rc => exact (descend_plug q rc _).trans rfl
      next hqb =>
        cases hl : l with
        | none => rfl
        | some lc => exact (descend_plug q lc _).trans rfl
    next hcond => rfl

/-- The walk-back loop never restructures the tree (no invariant needed). -/
lemma walkBack_plug (db : Nat) :
    ∀ (path : List (TrieCtx N T)) (node : TrieNode N T),
      plug (BinaryTrie.walkBack db node path).2 (some (BinaryTrie.walkBack db node path).1) =
        plug path (some node)
  | [], node => by
    rw [BinaryTrie.walkBack]
  | c :: rest, node => by
    rw [BinaryTrie.walkBack]
    split
    next hle => exact (walkBack_plug db rest (c.plugOne (some node))).trans rfl
    next hle => rfl

lemma countO_none : countO (none : Option (TrieNode N T)) = 0 := rfl

lemma countO_some (n : TrieNode N T) : countO (some n) = n.count := rfl

lemma idsO_none : idsO (none : Option (TrieNode N T)) = 0 := rfl

lemma idsO_some (n : TrieNode N T) : idsO (some n) = n.idsOf := rfl

lemma nodesO_none : nodesO (none : Option (TrieNode N T)) = [] := rfl

lemma nodesO_some (n : TrieNode N T) : nodesO (some n) = n.nodesOf := rfl

lemma TrieInv_key_WF {f : Nat → Bool} {d : Nat} {t : TrieNode N T}
    (h : TrieInv f d t) : t.key.WF := by
  cases t with
  | node i k b dd l r =>
    rw [TrieInv_node] at h
    obtain ⟨g, -, -, -, h4, -⟩ := h
    exact h4

lemma TrieInv_bits {f : Nat → Bool} {d : Nat} {t : TrieNode N T}
    (h : TrieInv f d t) : d ≤ t.bits ∧ t.bits ≤ 8 * N := by
  cases t with
  | node i k b dd l r =>
    rw [TrieInv_node] at h
    obtain ⟨g, -, h2, h3, -⟩ := h
    exact ⟨h2, h3⟩

lemma TrieInv_data_self {f : Nat → Bool} {d : Nat} {t : TrieNode N T}
    (h : TrieInv f d t) (hdata : t.key.bitCount ≠ 0) : t.key.bitCount = t.bits := by
  cases t with
  | node i k b dd l r =>
    rw [TrieInv_node] at h
    obtain ⟨g, -, -, -, -, h5, -⟩ := h
    exact (h5 hdata).1

lemma TrieInv_glue_children {f : Nat → Bool} {d : Nat} {t : TrieNode N T}
    (h : TrieInv f d t) (hglue : t.key.bitCount = 0) (hpos : 0 < t.bits) :
    t.left.isSome ∧ t.right.isSome := by
  cases t with
  | node i k b dd l r =>
    rw [TrieInv_node] at h
    obtain ⟨g, -, -, -, -, -, h6, -⟩ := h
    exact h6 hglue hpos

/-- Keys of two data nodes on one branch agree up to the ancestor's depth. -/
lemma data_key_agree {f : Nat → Bool} {d : Nat} {t : TrieNode N T}
    (h : TrieInv f d t) (hdata : DataN t) {st : TrieNode N T}
    (hst : st ∈ t.nodesOf) (hstd : DataN st) :
    ∀ j, j < t.bits → st.key.bit j = t.key.bit j := by
  cases t with
  | node i k b dd l r =>
    rw [TrieInv_node] at h
    obtain ⟨g, h1, h2, h3, h4, h5, h6, h7, h8⟩ := h
    intro j hj
    have hj' : j < b := hj
    have hdata' : k.bitCount ≠ 0 := hdata
    show st.key.bit j = k.bit j
    have hk : k.bit j = g j := (h5 hdata').2 j hj'
    rcases mem_nodesOf_elim hst with rfl | ⟨lc, hl, hmem⟩ | ⟨rc, hr, hmem⟩
    · rfl
    · have := (TrieInv_data_agrees (h7 lc hl) hmem hstd).2.2.2 j (by omega)
      rw [this, updBit, if_neg (by omega), hk]
    · have := (TrieInv_data_agrees (h8 rc hr) hmem hstd).2.2.2 j (by omega)
      rw [this, updBit, if_neg (by omega), hk]

/-- Case "extend below" of `lookupNode`: attaching a fresh leaf for `q` in
the (empty) chosen slot of the focus preserves the invariant. -/
lemma TrieInv_attach [Inhabited T] {f : Nat → Bool} {d : Nat} {t : TrieNode N T}
    (h : TrieInv f d t) {q : BitArray N} (hqwf : q.WF)
    (hpos : t.bits < q.bitCount) {st : TrieNode N T} (hst : st ∈ t.nodesOf)
    (href : t.bits = 0 ∨ (DataN st ∧ ∀ j, j < t.bits → q.bit j = st.key.bit j))
    (nid : Nat) :
    TrieInv f d (if q.bit t.bits
      then t.setRight (some (.node nid q q.bitCount default none none))
      else t.setLeft (some (.node nid q q.bitCount default none none))) := by
  cases t with
  | node i k b dd l r =>
    rw [TrieInv_node] at h
    obtain ⟨g, h1, h2, h3, h4, h5, h6, h7, h8⟩ := h
    simp only [TrieNode.bits] at hpos href ⊢
    have hqg : ∀ j, j < b → q.bit j = g j := by
      intro j hj
      rcases href with hb0 | ⟨hstd, hagree⟩
      · omega
      · rw [hagree j hj]
        rcases mem_nodesOf_elim hst with rfl | ⟨lc, hl, hmem⟩ | ⟨rc, hr, hmem⟩
        · exact (h5 hstd).2 j hj
        · have := (TrieInv_data_agrees (h7 lc hl) hmem hstd).2.2.2 j (by omega)
          rw [this, updBit, if_neg (by omega)]
        · have := (TrieInv_data_agrees (h8 rc hr) hmem hstd).2.2.2 j (by omega)
          rw [this, updBit, if_neg (by omega)]
    have hnew : ∀ (v : Bool), v = q.bit b →
        TrieInv (updBit g b v) (b + 1)
          (.node nid q q.bitCount default none none : TrieNode N T) := by
      intro v hv
      rw [TrieInv_node]
      refine ⟨fun j => q.bit j, ?_, by omega, hqwf.2.2, hqwf, ?_, ?_, ?_, ?_⟩
      · intro j hj
        rcases Nat.lt_or_ge j b with hjb | hjb
        · rw [updBit, if_neg (by omega)]
          exact hqg j hjb
        · have hjb' : j = b := by omega
          rw [hjb', updBit, if_pos rfl, hv]
      · intro h0
        exact ⟨rfl, fun j hj => rfl⟩
      · intro h0 hb0
        omega
      · intro lc hlc
        cases hlc
      · intro rc hrc
        cases hrc
    split
    next hqb =>
      rw [TrieNode.setRight, TrieInv_node]
      refine ⟨g, h1, h2, h3, h4, h5, ?_, h7, ?_⟩
      · intro h0 hb0
        exact ⟨(h6 h0 hb0).1, rfl⟩
      · intro rc hrc
        cases hrc
        exact hnew true hqb.symm
    next hqb =>
      have hqb' : q.bit b = false := by
        cases hqv : q.bit b
        · rfl
        · exact absurd hqv hqb
      rw [TrieNode.setLeft, TrieInv_node]
      refine ⟨g, h1, h2, h3, h4, h5, ?_, ?_, h8⟩
      · intro h0 hb0
        exact ⟨rfl, (h6 h0 hb0).2⟩
      · intro lc hlc
        cases hlc
        exact hnew false hqb'.symm

/-- Case "split above" of `lookupNode`: a fresh node for `q` takes the place
of the focus, which becomes its child on the side of the focus subtree's bit
at `q.len`. -/
lemma TrieInv_splitAbove [Inhabited T] {f : Nat → Bool} {d : Nat} {t : TrieNode N T}
    (h : TrieInv f d t) {q : BitArray N} (hqwf : q.WF) {st : TrieNode N T}
    (hst : st ∈ t.nodesOf) (hstd : DataN st)
    (hagree : ∀ j, j < q.bitCount → q.bit j = st.key.bit j)
    (hlt : q.bitCount < t.bits) (hd : d ≤ q.bitCount) (nid : Nat) :
    TrieInv f d (if st.key.bit q.bitCount
      then .node nid q q.bitCount default none (some t)
      else .node nid q q.bitCount default (some t) none) := by
  have hworkf := TrieInv_data_agrees h hst hstd
  have hchild : TrieInv (updBit (fun j => q.bit j) q.bitCount (st.key.bit q.bitCount))
      (q.bitCount + 1) t := by
    refine TrieInv_strengthen h hst hstd (by omega) ?_
    intro j hj
    rcases Nat.lt_or_ge j q.bitCount with hjb | hjb
    · rw [updBit, if_neg (by omega)]
      exact hagree j hjb
    · have hjb' : j = q.bitCount := by omega
      rw [hjb', updBit, if_pos rfl]
  have hfagree : ∀ j, j < d → q.bit j = f j := by
    intro j hj
    rw [hagree j (by omega)]
    exact hworkf.2.2.2 j hj
  split
  next hsb =>
    rw [TrieInv_node]
    refine ⟨fun j => q.bit j, fun j hj => hfagree j hj, hd, hqwf.2.2, hqwf,
      ?_, ?_, ?_, ?_⟩
    · intro h0
      exact ⟨rfl, fun j hj => rfl⟩
    · intro h0 hb0
      omega
    · intro lc hlc
      cases hlc
    · intro rc hrc
      cases hrc
      rwa [hsb] at hchild
  next hsb =>
    have hsb' : st.key.bit q.bitCount = false := by
      cases hsv : st.key.bit q.bitCount
      · rfl
      · exact absurd hsv hsb
    rw [TrieInv_node]
    refine ⟨fun j => q.bit j, fun j hj => hfagree j hj, hd, hqwf.2.2, hqwf,
      ?_, ?_, ?_, ?_⟩
    · intro h0
      exact ⟨rfl, fun j hj => rfl⟩
    · intro h0 hb0
      omega
    · intro lc hlc
      cases hlc
      rwa [hsb'] at hchild
    · intro rc hrc
      cases hrc

/-- Case "fork with glue" of `lookupNode`: a fresh glue at the first
differing bit hosts the focus and a fresh leaf for `q`. -/
lemma TrieInv_glueFork [Inhabited T] {f : Nat → Bool} {d : Nat} {t : TrieNode N T}
    (h : TrieInv f d t) {q : BitArray N} (hqwf : q.WF) {st : TrieNode N T}
    (hst : st ∈ t.nodesOf) (hstd : DataN st) {db : Nat}
    (hagree : ∀ j, j < db → q.bit j = st.key.bit j)
    (hdiffer : q.bit db ≠ st.key.bit db)
    (hdb : db < t.bits) (hdbq : db < q.bitCount) (hd : d ≤ db) (nid : Nat) :
    TrieInv f d (if q.bit db
      then .node (nid + 1) default db default (some t)
        (some (.node nid q q.bitCount default none none))
      else .node (nid + 1) default db default
        (some (.node nid q q.bitCount default none none)) (some t)) := by
  have hworkf := TrieInv_data_agrees h hst hstd
  have hstdb : st.key.bit db = !(q.bit db) := by
    cases hqv : q.bit db <;> cases hsv : st.key.bit db <;> simp_all
  have hchild : TrieInv (updBit (fun j => q.bit j) db (!(q.bit db))) (db + 1) t := by
    refine TrieInv_strengthen h hst hstd (by omega) ?_
    intro j hj
    rcases Nat.lt_or_ge j db with hjb | hjb
    · rw [updBit, if_neg (by omega)]
      exact hagree j hjb
    · have hjb' : j = db := by omega
      rw [hjb', updBit, if_pos rfl, hstdb]
  have hnew : TrieInv (updBit (fun j => q.bit j) db (q.bit db)) (db + 1)
      (TrieNode.node nid q q.bitCount default none none : TrieNode N T) := by
    rw [TrieInv_node]
    refine ⟨fun j => q.bit j, ?_, by omega, hqwf.2.2, hqwf, ?_, ?_, ?_, ?_⟩
    · intro j hj
      rcases Nat.lt_or_ge j db with hjb | hjb
      · rw [updBit, if_neg (by omega)]
      · have hjb' : j = db := by omega
        rw [hjb', updBit, if_pos rfl]
    · intro h0
      exact ⟨rfl, fun j hj => rfl⟩
    · intro h0 hb0
      omega
    · intro lc hlc
      cases hlc
    · intro rc hrc
      cases hrc
  have hfagree : ∀ j, j < d → q.bit j = f j := by
    intro j hj
    rw [hagree j (by omega)]
    exact hworkf.2.2.2 j hj
  split
  next hqb =>
    rw [TrieInv_node]
    refine ⟨fun j => q.bit j, fun j hj => hfagree j hj, hd,
      by have := hqwf.2.2; omega, default_WF, ?_, ?_, ?_, ?_⟩
    · intro h0
      exact absurd default_bitCount h0
    · intro h0 hb0
      exact ⟨rfl, rfl⟩
    · intro lc hlc
      cases hlc
      rw [show (!(q.bit db)) = false by rw [hqb]; rfl] at hchild
      exact hchild
    · intro rc hrc
      cases hrc
      rw [show q.bit db = true from hqb] at hnew
      exact hnew
  next hqb =>
    have hqb' : q.bit db = false := by
      cases hqv : q.bit db
      · rfl
      · exact absurd hqv hqb
    rw [TrieInv_node]
    refine ⟨fun j => q.bit j, fun j hj => hfagree j hj, hd,
      by have := hqwf.2.2; omega, default_WF, ?_, ?_, ?_, ?_⟩
    · intro h0
      exact absurd default_bitCount h0
    · intro h0 hb0
      exact ⟨rfl, rfl⟩
    · intro lc hlc
      cases hlc
      rw [show q.bit db = false from hqb'] at hnew
      exact hnew
    · intro rc hrc
      cases hrc
      rw [show (!(q.bit db)) = true by rw [hqb']; rfl] at hchild
      exact hchild

lemma setRight_nid (t : TrieNode N T) (x : Option (TrieNode N T)) :
    (t.setRight x).nid = t.nid := by
  cases t
  rfl

lemma setLeft_nid (t : TrieNode N T) (x : Option (TrieNode N T)) :
    (t.setLeft x).nid = t.nid := by
  cases t
  rfl

lemma setRight_right (t : TrieNode N T) (x : Option (TrieNode N T)) :
    (t.setRight x).right = x := by
  cases t
  rfl

lemma setLeft_left (t : TrieNode N T) (x : Option (TrieNode N T)) :
    (t.setLeft x).left = x := by
  cases t
  rfl

lemma setRight_count (t : TrieNode N T) (x : Option (TrieNode N T)) :
    (t.setRight x).count = 1 + countO t.left + countO x := by
  cases t with
  | node i k b dd l r =>
    rw [TrieNode.setRight, count_node]
    rfl

lemma setLeft_count (t : TrieNode N T) (x : Option (TrieNode N T)) :
    (t.setLeft x).count = 1 + countO x + countO t.right := by
  cases t with
  | node i k b dd l r =>
    rw [TrieNode.setLeft, count_node]
    rfl

lemma setRight_ids (t : TrieNode N T) (x : Option (TrieNode N T)) :
    (t.setRight x).idsOf = t.nid ::ₘ (idsO t.left + idsO x) := by
  cases t with
  | node i k b dd l r =>
    rw [TrieNode.setRight, idsOf_node]
    rfl

lemma setLeft_ids (t : TrieNode N T) (x : Option (TrieNode N T)) :
    (t.setLeft x).idsOf = t.nid ::ₘ (idsO x + idsO t.right) := by
  cases t with
  | node i k b dd l r =>
    rw [TrieNode.setLeft, idsOf_node]
    rfl

lemma count_decompose (t : TrieNode N T) :
    t.count = 1 + countO t.left + countO t.right := by
  cases t with
  | node i k b dd l r =>
    rw [count_node]
    rfl

lemma ids_decompose (t : TrieNode N T) :
    t.idsOf = t.nid ::ₘ (idsO t.left + idsO t.right) := by
  cases t with
  | node i k b dd l r =>
    rw [idsOf_node]
    rfl

/-- The chosen child of an invariant node constrains the keys of its data
descendants at the branching bit. -/
lemma chosen_child_bit {f : Nat → Bool} {d : Nat} {t : TrieNode N T}
    (h : TrieInv f d t) {q : BitArray N} {sub : TrieNode N T}
    (hsub : (if q.bit t.bits then t.right else t.left) = some sub)
    {st : TrieNode N T} (hstm : st ∈ sub.nodesOf) (hstd : DataN st) :
    st.key.bit t.bits = q.bit t.bits := by
  cases t with
  | node i k b dd l r =>
    rw [TrieInv_node] at h
    obtain ⟨g, h1, h2, h3, h4, h5, h6, h7, h8⟩ := h
    show st.key.bit b = q.bit b
    cases hqb : q.bit ((TrieNode.node i k b dd l r : TrieNode N T).bits) with
    | true =>
      rw [if_pos hqb] at hsub
      have := (TrieInv_data_agrees (h8 sub hsub) hstm hstd).2.2.2 b (by omega)
      rw [this, updBit, if_pos rfl]
      exact hqb.symm
    | false =>
      rw [if_neg (by rw [hqb]; exact Bool.false_ne_true)] at hsub
      have := (TrieInv_data_agrees (h7 sub hsub) hstm hstd).2.2.2 b (by omega)
      rw [this, updBit, if_pos rfl]
      exact hqb.symm

lemma TrieInv_child_any {f : Nat → Bool} {d : Nat} {t : TrieNode N T}
    (h : TrieInv f d t) {cond : Bool} {sub : TrieNode N T}
    (hsub : (if cond then t.right else t.left) = some sub) :
    ∃ f', TrieInv f' (t.bits + 1) sub := by
  cases t with
  | node i k b dd l r =>
    rw [TrieInv_node] at h
    obtain ⟨g, h1, h2, h3, h4, h5, h6, h7, h8⟩ := h
    cases cond
    · rw [if_neg (by simp)] at hsub
      exact ⟨updBit g b false, h7 sub hsub⟩
    · rw [if_pos rfl] at hsub
      exact ⟨updBit g b true, h8 sub hsub⟩

/-- Leaf node for a key: one node, one id. -/
lemma leaf_count [Inhabited T] (nid : Nat) (q : BitArray N) :
    (TrieNode.node nid q q.bitCount default none none : TrieNode N T).count = 1 := by
  rw [count_node]
  rfl

lemma leaf_ids [Inhabited T] (nid : Nat) (q : BitArray N) :
    (TrieNode.node nid q q.bitCount default none none : TrieNode N T).idsOf = {nid} := by
  rw [idsOf_node]
  rfl

/-- The complete account of one `lookupNode` call on an invariant trie: the
invariant is preserved, the node count bookkeeping matches the actual tree,
at most two nodes are allocated (with fresh ids), and the returned reference
designates a data node holding exactly the requested key. -/
theorem lookupNode_spec [Inhabited T] (t : BinaryTrie N T) (q : BitArray N)
    (ht : TrieInvO t.root) (hq : q.WF) :
    TrieInvO (BinaryTrie.lookupNode t q).1.root ∧
    countO (BinaryTrie.lookupNode t q).1.root + t.numNodes =
      countO t.root + (BinaryTrie.lookupNode t q).1.numNodes ∧
    t.numNodes ≤ (BinaryTrie.lookupNode t q).1.numNodes ∧
    (BinaryTrie.lookupNode t q).1.numNodes ≤ t.numNodes + 2 ∧
    t.nextId ≤ (BinaryTrie.lookupNode t q).1.nextId ∧
    (∃ fresh : Multiset Nat,
      idsO (BinaryTrie.lookupNode t q).1.root = idsO t.root + fresh ∧
      fresh.Nodup ∧ ∀ j ∈ fresh, t.nextId ≤ j ∧ j < (BinaryTrie.lookupNode t q).1.nextId) ∧
    (q.bitCount ≠ 0 → ∃ m ∈ nodesO (BinaryTrie.lookupNode t q).1.root,
      m.nid = (BinaryTrie.lookupNode t q).2 ∧ DataN m ∧ ExactFor m q) := by
  obtain ⟨root, nn, ni⟩ := t
  cases root with
  | none =>
    rw [show BinaryTrie.lookupNode (⟨none, nn, ni⟩ : BinaryTrie N T) q =
        (⟨some (.node ni q q.bitCount default none none), nn + 1, ni + 1⟩, ni) from rfl]
    dsimp only
    refine ⟨?_, ?_, by omega, by omega, by omega, ?_, ?_⟩
    · intro n hn
      cases hn
      rw [TrieInv_node]
      refine ⟨fun j => q.bit j, fun j hj => absurd hj (by omega), Nat.zero_le _,
        hq.2.2, hq, fun h0 => ⟨rfl, fun j hj => rfl⟩, fun h0 hb => absurd hb (by omega),
        ?_, ?_⟩
      · intro lc hlc
        cases hlc
      · intro rc hrc
        cases hrc
    · rw [countO_some, leaf_count, countO_none]
      omega
    · refine ⟨{ni}, ?_, by simp, ?_⟩
      · rw [idsO_some, leaf_ids, idsO_none, zero_add]
      · intro j hj
        rw [Multiset.mem_singleton] at hj
        omega
    · intro h0
      refine ⟨.node ni q q.bitCount default none none, ?_, rfl, h0, rfl, fun i hi => rfl⟩
      rw [nodesO_some]
      exact self_mem_nodesOf _
  | some rt =>
    dsimp only
    have hrt : TrieInv (fun _ => false) 0 rt := ht rt rfl
    obtain ⟨f1, d1, hI1, hP1, hD1, hplug1, hstop1⟩ :=
      descend_spec q rt [] (fun _ => false) 0 hrt rfl (by intro c hc; cases hc)
    have hstwf := TrieInv_key_WF hI1
    obtain ⟨hdble, hagreeQ, hdisj⟩ :=
      BitArray.firstDifferentBit_spec q (BinaryTrie.descend q rt []).1.key
        (if (BinaryTrie.descend q rt []).1.bits < q.bitCount
          then (BinaryTrie.descend q rt []).1.bits else q.bitCount)
        hq.2.1 hstwf.2.1
    obtain ⟨f2, d2, hI2, hP2, hD2, hplug2, hdb2, hstm, hpar, hlast⟩ :=
      walkBack_spec q
        (q.firstDifferentBit (BinaryTrie.descend q rt []).1.key
          (if (BinaryTrie.descend q rt []).1.bits < q.bitCount
            then (BinaryTrie.descend q rt []).1.bits else q.bitCount))
        (BinaryTrie.descend q rt []).2 (BinaryTrie.descend q rt []).1 f1 d1
        (BinaryTrie.descend q rt []).1 hI1 hP1 hD1
        (by
          rcases Nat.lt_or_ge (BinaryTrie.descend q rt []).1.bits q.bitCount with hv | hv
          · exact le_trans hdble (by rw [if_pos hv])
          · exact le_trans hdble (by rw [if_neg (by omega)]; omega))
        (self_mem_nodesOf _)
    simp only [BinaryTrie.lookupNode]
    set st := (BinaryTrie.descend q rt []).1 with hst_def
    set p := (BinaryTrie.descend q rt []).2 with hp_def
    set cb := (if st.bits < q.bitCount then st.bits else q.bitCount) with hcb_def
    set db := q.firstDifferentBit st.key cb with hdb_def
    set wb := BinaryTrie.walkBack db st p with hwb_def
    set nd := wb.1 with hnd_def
    set path := wb.2 with hpath_def
    have hcb1 : cb ≤ st.bits := by rw [hcb_def]; split <;> omega
    have hcb2 : cb ≤ q.bitCount := by rw [hcb_def]; split <;> omega
    have hdbst : db ≤ st.bits := le_trans hdble hcb1
    have hdbq : db ≤ q.bitCount := le_trans hdble hcb2
    have hglue0 : st.key.bitCount = 0 → st.bits = 0 := by
      intro h0
      by_contra hne
      have hpos : 0 < st.bits := by omega
      obtain ⟨hgl, hgr⟩ := TrieInv_glue_children hI1 h0 hpos
      rcases hstop1 with ⟨hnull, -⟩ | ⟨-, hne'⟩
      · cases hqb : q.bit st.bits
        · rw [if_neg (by rw [hqb]; exact Bool.false_ne_true)] at hnull
          rw [hnull] at hgl
          exact absurd hgl (by simp)
        · rw [if_pos hqb] at hnull
          rw [hnull] at hgr
          exact absurd hgr (by simp)
      · exact hne' h0
    have hstdata : 0 < st.bits → DataN st := by
      intro hpos
      by_contra h'
      have h0 : st.key.bitCount = 0 := by
        rcases Nat.eq_zero_or_pos st.key.bitCount with h | h
        · exact h
        · exact absurd (by omega : st.key.bitCount ≠ 0) h'
      have := hglue0 h0
      omega
    have hstnd : nd.bits ≤ st.bits := bits_le_of_mem hI2 hstm
    have hd2db : d2 ≤ db := by
      rcases hpar with hnil | ⟨c, rest, hcons, hlt⟩
      · rw [hnil] at hP2
        have hz : d2 = 0 := hP2
        omega
      · rw [hcons] at hP2
        obtain ⟨fp, dp, g, -, -, -, -, -, -, -, -, hdq, -⟩ := hP2
        omega
    have hroot : plug path (some nd) = some rt := hplug2.trans (hplug1.trans rfl)
    by_cases hc1 : db = q.bitCount ∧ nd.bits = q.bitCount
    · rw [if_pos (by simp [hc1.1, hc1.2])]
      by_cases hgl : nd.key.bitCount = 0
      · rw [if_pos (by simp [hgl])]
        have hinv' : TrieInv f2 d2 (nd.setKey q) := by
          by_cases hq0 : q.bitCount = 0
          · exact TrieInv_promote_zero hI2 hgl hq hq0
          · have hstd : DataN st := hstdata (by omega)
            have hagree' : ∀ j, j < nd.bits → q.bit j = st.key.bit j := by
              intro j hj
              exact hagreeQ j (by omega)
            exact TrieInv_promote hI2 hgl hstm hstd hq (by omega) hagree'
        dsimp only
        refine ⟨plug_TrieInv path f2 d2 _ hP2 hinv', ?_, le_refl _, by omega,
          le_refl _, ⟨0, ?_, by simp, by simp⟩, ?_⟩
        · rw [← hroot, countO_plug, countO_plug, countO_some, countO_some, setKey_count]
        · rw [← hroot, idsO_plug, idsO_plug, idsO_some, idsO_some, setKey_ids, add_zero]
        · intro h0
          refine ⟨nd.setKey q, ?_, setKey_nid nd q, ?_, ?_, ?_⟩
          · exact mem_plug path _ (by rw [nodesO_some]; exact self_mem_nodesOf _)
          · show (nd.setKey q).key.bitCount ≠ 0
            rw [setKey_key]
            exact h0
          · rw [setKey_key]
          · intro i hi
            rw [setKey_key]
      · rw [if_neg (by simp [hgl])]
        have hndd : DataN nd := hgl
        dsimp only
        refine ⟨?_, ?_, le_refl _, by omega, le_refl _, ⟨0, ?_, by simp, by simp⟩, ?_⟩
        · rw [hroot]
          intro n hn
          cases hn
          exact hrt
        · rw [hroot]
        · rw [hroot, add_zero]
        · intro h0
          have hstd : DataN st := hstdata (by omega)
          refine ⟨nd, mem_plug path _ (by rw [nodesO_some]; exact self_mem_nodesOf _),
            rfl, hndd, ?_, ?_⟩
          · have := TrieInv_data_self hI2 hndd
            omega
          · intro i hi
            have ha1 := hagreeQ i (by omega)
            have ha2 := data_key_agree hI2 hndd hstm hstd i (by omega)
            rw [← ha2, ← ha1]
    · rw [if_neg (by
        simp only [Bool.and_eq_true, beq_iff_eq]
        exact fun h => hc1 ⟨h.1, h.2⟩)]
      by_cases hc2 : nd.bits = db
      · rw [if_pos (by simp [hc2])]
        have hdbltq : db < q.bitCount := by
          rcases Nat.lt_or_ge db q.bitCount with h | h
          · exact h
          · exfalso
            exact hc1 ⟨by omega, by omega⟩
        have hnp : nd = st ∧ path = p ∧ (if q.bit nd.bits then nd.right else nd.left) = none := by
          rcases hlast with ⟨h1, h2⟩ | ⟨sub, hsub, hsubst, hsubbits⟩
          · refine ⟨h1, h2, ?_⟩
            rcases hstop1 with ⟨hnull, -⟩ | ⟨hge, -⟩
            · rw [h1]
              exact hnull
            · exfalso
              have : nd.bits = st.bits := by rw [h1]
              omega
          · exfalso
            obtain ⟨f3, hI3⟩ := TrieInv_child_any hI2 hsub
            have hsubst' : sub.bits ≤ st.bits := bits_le_of_mem hI3 hsubst
            have hstpos : 0 < st.bits := by omega
            have hstd : DataN st := hstdata hstpos
            have hbit := chosen_child_bit hI2 hsub hsubst hstd
            have hdiffer : q.bit db ≠ st.key.bit db := by
              rcases hdisj with heq | hne
              · exfalso
                rw [hcb_def] at heq
                split at heq <;> omega
              · exact hne
            rw [hc2] at hbit
            exact hdiffer hbit.symm
        obtain ⟨hnd_st, hpath_p, hslot⟩ := hnp
        have hinv' : TrieInv f2 d2 (if q.bit nd.bits
            then nd.setRight (some (.node ni q q.bitCount default none none))
            else nd.setLeft (some (.node ni q q.bitCount default none none))) := by
          refine TrieInv_attach hI2 hq (by omega) hstm ?_ ni
          rcases Nat.eq_zero_or_pos nd.bits with h0 | hpos
          · exact Or.inl h0
          · right
            have hstd : DataN st := hstdata (by omega)
            exact ⟨hstd, fun j hj => hagreeQ j (by omega)⟩
        have hcount' : (if q.bit nd.bits
            then nd.setRight (some (.node ni q q.bitCount default none none))
            else nd.setLeft (some (.node ni q q.bitCount default none none))).count =
              nd.count + 1 := by
          cases hqb : q.bit nd.bits
          · rw [if_neg (by exact Bool.false_ne_true)]
            rw [if_neg (by rw [hqb]; exact Bool.false_ne_true)] at hslot
            rw [setLeft_count, count_decompose nd, hslot, countO_some, leaf_count, countO_none]
            omega
          · rw [if_pos rfl]
            rw [if_pos hqb] at hslot
            rw [setRight_count, count_decompose nd, hslot, countO_some, leaf_count, countO_none]
        have hids' : (if q.bit nd.bits
            then nd.setRight (some (.node ni q q.bitCount default none none))
            else nd.setLeft (some (.node ni q q.bitCount default none none))).idsOf =
              nd.idsOf + {ni} := by
          cases hqb : q.bit nd.bits
          · rw [if_neg (by exact Bool.false_ne_true)]
            rw [if_neg (by rw [hqb]; exact Bool.false_ne_true)] at hslot
            rw [setLeft_ids, ids_decompose nd, hslot, idsO_some, leaf_ids, idsO_none]
            rw [← Multiset.singleton_add, ← Multiset.singleton_add]
            abel
          · rw [if_pos rfl]
            rw [if_pos hqb] at hslot
            rw [setRight_ids, ids_decompose nd, hslot, idsO_some, leaf_ids, idsO_none]
            rw [← Multiset.singleton_add, ← Multiset.singleton_add]
            abel
        dsimp only
        refine ⟨plug_TrieInv path f2 d2 _ hP2 hinv', ?_, by omega, by omega, by omega,
          ⟨{ni}, ?_, by simp, ?_⟩, ?_⟩
        · rw [← hroot, countO_plug, countO_plug, countO_some, countO_some, hcount']
          omega
        · rw [← hroot, idsO_plug, idsO_plug, idsO_some, idsO_some, hids']
          abel
        · intro j hj
          rw [Multiset.mem_singleton] at hj
          omega
        · intro h0
          refine ⟨.node ni q q.bitCount default none none, ?_, rfl, h0, rfl, fun i hi => rfl⟩
          refine mem_plug path _ ?_
          rw [nodesO_some]
          cases hqb : q.bit nd.bits
          · rw [if_neg (by exact Bool.false_ne_true)]
            exact mem_nodesOf_left (setLeft_left nd _) (self_mem_nodesOf _)
          · rw [if_pos rfl]
            exact mem_nodesOf_right (setRight_right nd _) (self_mem_nodesOf _)
      · rw [if_neg (by simp [hc2])]
        have hdbltnd : db < nd.bits := by omega
        have hstd : DataN st := hstdata (by omega)
        by_cases hc3 : q.bitCount = db
        · rw [if_pos (by simp [hc3])]
          have hinv' : TrieInv f2 d2 (if st.key.bit q.bitCount
              then TrieNode.node ni q q.bitCount default none (some nd)
              else TrieNode.node ni q q.bitCount default (some nd) none) := by
            refine TrieInv_splitAbove hI2 hq hstm hstd ?_ (by omega) (by omega) ni
            intro j hj
            exact hagreeQ j (by omega)
          have hcount' : (if st.key.bit q.bitCount
              then TrieNode.node ni q q.bitCount default none (some nd)
              else TrieNode.node ni q q.bitCount default (some nd) none).count =
                nd.count + 1 := by
            cases hqb : st.key.bit q.bitCount
            · rw [if_neg (by exact Bool.false_ne_true), count_node,
                countO_some, countO_none]
              omega
            · rw [if_pos rfl, count_node, countO_some, countO_none]
              omega
          have hids' : (if st.key.bit q.bitCount
              then TrieNode.node ni q q.bitCount default none (some nd)
              else TrieNode.node ni q q.bitCount default (some nd) none).idsOf =
                nd.idsOf + {ni} := by
            cases hqb : st.key.bit q.bitCount
            · rw [if_neg (by exact Bool.false_ne_true), idsOf_node,
                idsO_some, idsO_none]
              rw [← Multiset.singleton_add]
              abel
            · rw [if_pos rfl, idsOf_node, idsO_some, idsO_none]
              rw [← Multiset.singleton_add]
              abel
          dsimp only
          refine ⟨plug_TrieInv path f2 d2 _ hP2 hinv', ?_, by omega, by omega, by omega,
            ⟨{ni}, ?_, by simp, ?_⟩, ?_⟩
          · rw [← hroot, countO_plug, countO_plug, countO_some, countO_some, hcount']
            omega
          · rw [← hroot, idsO_plug, idsO_plug, idsO_some, idsO_some, hids']
            abel
          · intro j hj
            rw [Multiset.mem_singleton] at hj
            omega
          · intro h0
            cases hqb : st.key.bit q.bitCount
            · rw [if_neg (by exact Bool.false_ne_true)]
              refine ⟨TrieNode.node ni q q.bitCount default (some nd) none, ?_, rfl, h0,
                rfl, fun i hi => rfl⟩
              refine mem_plug path _ ?_
              rw [nodesO_some]
              exact self_mem_nodesOf _
            · rw [if_pos rfl]
              refine ⟨TrieNode.node ni q q.bitCount default none (some nd), ?_, rfl, h0,
                rfl, fun i hi => rfl⟩
              refine mem_plug path _ ?_
              rw [nodesO_some]
              exact self_mem_nodesOf _
        · rw [if_neg (by simp [hc3])]
          have hdbltq : db < q.bitCount := by omega
          have hdiffer : q.bit db ≠ st.key.bit db := by
            rcases hdisj with heq | hne
            · exfalso
              rw [hcb_def] at heq
              split at heq <;> omega
            · exact hne
          have hinv' : TrieInv f2 d2 (if q.bit db
              then TrieNode.node (ni + 1) default db default (some nd)
                (some (.node ni q q.bitCount default none none))
              else TrieNode.node (ni + 1) default db default
                (some (.node ni q q.bitCount default none none)) (some nd)) := by
            refine TrieInv_glueFork hI2 hq hstm hstd ?_ hdiffer (by omega) (by omega)
              (by omega) ni
            intro j hj
            exact hagreeQ j hj
          have hcount' : (if q.bit db
              then TrieNode.node (ni + 1) default db default (some nd)
                (some (.node ni q q.bitCount default none none))
              else TrieNode.node (ni + 1) default db default
                (some (.node ni q q.bitCount default none none)) (some nd)).count =
                nd.count + 2 := by
            cases hqb : q.bit db
            · rw [if_neg (by exact Bool.false_ne_true), count_node,
                countO_some, countO_some, leaf_count]
              omega
            · rw [if_pos rfl, count_node, countO_some, countO_some, leaf_count]
              omega
          have hids' : (if q.bit db
              then TrieNode.node (ni + 1) default db default (some nd)
                (some (.node ni q q.bitCount default none none))
              else TrieNode.node (ni + 1) default db default
                (some (.node ni q q.bitCount default none none)) (some nd)).idsOf =
                nd.idsOf + (ni ::ₘ {ni + 1}) := by
            cases hqb : q.bit db
            · rw [if_neg (by exact Bool.false_ne_true), idsOf_node,
                idsO_some, idsO_some, leaf_ids]
              rw [← Multiset.singleton_add, ← Multiset.singleton_add]
              abel
            · rw [if_pos rfl, idsOf_node, idsO_some, idsO_some, leaf_ids]
              rw [← Multiset.singleton_add, ← Multiset.singleton_add]
              abel
          dsimp only
          refine ⟨plug_TrieInv path f2 d2 _ hP2 hinv', ?_, by omega, by omega, by omega,
            ⟨ni ::ₘ {ni + 1}, ?_, ?_, ?_⟩, ?_⟩
          · rw [← hroot, countO_plug, countO_plug, countO_some, countO_some, hcount']
            omega
          · rw [← hroot, idsO_plug, idsO_plug, idsO_some, idsO_some, hids']
            rw [← Multiset.singleton_add]
            abel
          · rw [Multiset.nodup_cons]
            constructor
            · rw [Multiset.mem_singleton]
              omega
            · simp
          · intro j hj
            rw [Multiset.mem_cons, Multiset.mem_singleton] at hj
            omega
          · intro h0
            cases hqb : q.bit db
            · rw [if_neg (by exact Bool.false_ne_true)]
              refine ⟨TrieNode.node ni q q.bitCount default none none, ?_, rfl, h0,
                rfl, fun i hi => rfl⟩
              refine mem_plug path _ ?_
              rw [nodesO_some]
              simp [nodesOf_node, nodesO_some]
            · rw [if_pos rfl]
              refine ⟨TrieNode.node ni q q.bitCount default none none, ?_, rfl, h0,
                rfl, fun i hi => rfl⟩
              refine mem_plug path _ ?_
              rw [nodesO_some]
              simp [nodesOf_node, nodesO_some]

lemma searchExactAux_eq (q : BitArray N) (i : Nat) (k : BitArray N) (b : Nat) (dd : T)
    (l r : Option (TrieNode N T)) (path : List (TrieCtx N T)) :
    BinaryTrie.searchExactAux q (.node i k b dd l r) path =
      if b < q.bitCount then
        if q.bit b then
          match r with
          | none => none
          | some rc => BinaryTrie.searchExactAux q rc (⟨i, k, b, dd, true, l⟩ :: path)
        else
          match l with
          | none => none
          | some lc => BinaryTrie.searchExactAux q lc (⟨i, k, b, dd, false, r⟩ :: path)
      else
        if b > q.bitCount || k.bitCount == 0 then none
        else if q.compareBits k q.bitCount then some (.node i k b dd l r, path)
        else none := by
  rw [BinaryTrie.searchExactAux.eq_def]

/-- Soundness of `searchExact`'s descent: a hit is a data node of the tree
storing exactly the queried key, and the returned zipper reconstructs the
tree. -/
lemma searchExactAux_spec (q : BitArray N) (hq : q.WF) :
    ∀ (t : TrieNode N T) (path : List (TrieCtx N T)) (f : Nat → Bool) (d : Nat)
      (m : TrieNode N T) (p' : List (TrieCtx N T)),
      TrieInv f d t → PathOK path f d →
      BinaryTrie.searchExactAux q t path = some (m, p') →
      ∃ (f' : Nat → Bool) (d' : Nat),
        TrieInv f' d' m ∧ PathOK p' f' d' ∧
        plug p' (some m) = plug path (some t) ∧
        m ∈ t.nodesOf ∧ DataN m ∧ m.bits = q.bitCount ∧ ExactFor m q
  | .node i k b dd l r, path, f, d, m, p', h, hp, hres => by
    rw [searchExactAux_eq] at hres
    have hinv := h
    rw [TrieInv_node] at hinv
    obtain ⟨g, h1, h2, h3, h4, h5, h6, h7, h8⟩ := hinv
    split at hres
    next hblt =>
      split at hres
      next hqb =>
        cases hr : r with
        | none =>
          rw [hr] at hres
          exact absurd hres (by simp)
        | some rc =>
          rw [hr] at hres
          have hpath' : PathOK (⟨i, k, b, dd, true, l⟩ :: path)
              (updBit g b true) (b + 1) := by
            rw [PathOK]
            refine ⟨f, d, g, hp, h1, h2, h3, h4, h5,
              fun h0 hb => ((h6 h0 hb).1), ?_, rfl, fun j hj => rfl⟩
            intro oc hoc
            have := h7 oc hoc
            rwa [show (!true) = false from rfl]
          obtain ⟨f', d', hIm, hPm, hplugm, hmem, hrest⟩ :=
            searchExactAux_spec q hq rc _ _ _ m p' (h8 rc hr) hpath' hres
          refine ⟨f', d', hIm, hPm, ?_, mem_nodesOf_right
            (show (TrieNode.node i k b dd l (some rc) : TrieNode N T).right = some rc
              from rfl) hmem, hrest⟩
          rw [hplugm, plug, TrieCtx.plugOne, if_pos rfl]
      next hqb =>
        cases hl : l with
        | none =>
          rw [hl] at hres
          exact absurd hres (by simp)
        | some lc =>
          rw [hl] at hres
          have hpath' : PathOK (⟨i, k, b, dd, false, r⟩ :: path)
              (updBit g b false) (b + 1) := by
            rw [PathOK]
            refine ⟨f, d, g, hp, h1, h2, h3, h4, h5,
              fun h0 hb => ((h6 h0 hb).2), ?_, rfl, fun j hj => rfl⟩
            intro oc hoc
            have := h8 oc hoc
            rwa [show (!false) = true from rfl]
          obtain ⟨f', d', hIm, hPm, hplugm, hmem, hrest⟩ :=
            searchExactAux_spec q hq lc _ _ _ m p' (h7 lc hl) hpath' hres
          refine ⟨f', d', hIm, hPm, ?_, mem_nodesOf_left
            (show (TrieNode.node i k b dd (some lc) r : TrieNode N T).left = some lc
              from rfl) hmem, hrest⟩
          rw [hplugm, plug, TrieCtx.plugOne, if_neg (by simp)]
    next hblt =>
      split at hres
      next hchk => exact absurd hres (by simp)
      next hchk =>
        simp only [Bool.or_eq_true, decide_eq_true_eq, beq_iff_eq, not_or] at hchk
        obtain ⟨hgt, hk0⟩ := hchk
        have hbq : b = q.bitCount := by omega
        split at hres
        next hcmp =>
          rw [Option.some_inj, Prod.mk.injEq] at hres
          obtain ⟨hm1, hm2⟩ := hres
          subst hm1
          subst hm2
          obtain ⟨-, -, hag⟩ := (BitArray.compareBits_spec q k q.bitCount hq h4).1 hcmp
          exact ⟨f, d, h, hp, rfl, self_mem_nodesOf _, hk0, hbq,
            (h5 hk0).1.trans hbq, fun i hi => (hag i hi).symm⟩
        next hcmp => exact absurd hres (by simp)

/-- Completeness of `searchExact`'s descent: a stored data node whose key is
exactly the query is found (`searchExact` cannot miss). -/
lemma searchExactAux_finds (q : BitArray N) (hq : q.WF) :
    ∀ (t : TrieNode N T) (path : List (TrieCtx N T)) (f : Nat → Bool) (d : Nat)
      (m : TrieNode N T),
      TrieInv f d t → m ∈ t.nodesOf → DataN m → ExactFor m q →
      ∃ p', BinaryTrie.searchExactAux q t path = some (m, p')
  | .node i k b dd l r, path, f, d, m, h, hm, hdata, hex => by
    have hinv := h
    rw [TrieInv_node] at hinv
    obtain ⟨g, h1, h2, h3, h4, h5, h6, h7, h8⟩ := hinv
    have hkb : m.key.bitCount = m.bits := (TrieInv_data_agrees h hm hdata).2.1
    have hmq : m.key.bitCount = q.bitCount := hex.1
    rw [searchExactAux_eq]
    by_cases hblt : b < q.bitCount
    · rw [if_pos hblt]
      rcases mem_nodesOf_elim hm with rfl | ⟨lc, hl, hmem⟩ | ⟨rc, hr, hmem⟩
      · exfalso
        have : k.bitCount = b := (h5 hdata).1
        simp only [TrieNode.key, TrieNode.bits] at hmq this
        omega
      · have hIl := h7 lc hl
        have hmbit : m.key.bit b = false := by
          have := (TrieInv_data_agrees hIl hmem hdata).2.2.2 b (by omega)
          rw [this, updBit, if_pos rfl]
        have hqbit : q.bit b = false := by
          rw [← hex.2 b hblt, hmbit]
        rw [hqbit]
        rw [if_neg (show ¬(false = true) from Bool.false_ne_true)]
        have hl' : l = some lc := hl
        rw [hl']
        exact searchExactAux_finds q hq lc _ _ _ m hIl hmem hdata hex
      · have hIr := h8 rc hr
        have hmbit : m.key.bit b = true := by
          have := (TrieInv_data_agrees hIr hmem hdata).2.2.2 b (by omega)
          rw [this, updBit, if_pos rfl]
        have hqbit : q.bit b = true := by
          rw [← hex.2 b hblt, hmbit]
        rw [hqbit]
        rw [if_pos rfl]
        have hr' : r = some rc := hr
        rw [hr']
        exact searchExactAux_finds q hq rc _ _ _ m hIr hmem hdata hex
    · rw [if_neg hblt]
      have hmt : m = TrieNode.node i k b dd l r := by
        rcases mem_nodesOf_elim hm with rfl | ⟨lc, hl, hmem⟩ | ⟨rc, hr, hmem⟩
        · rfl
        · exfalso
          have hIl := h7 lc hl
          have hlb : b + 1 ≤ lc.bits := (TrieInv_bits hIl).1
          have hlm : lc.bits ≤ m.bits := bits_le_of_mem hIl hmem
          omega
        · exfalso
          have hIr := h8 rc hr
          have hrb : b + 1 ≤ rc.bits := (TrieInv_bits hIr).1
          have hrm : rc.bits ≤ m.bits := bits_le_of_mem hIr hmem
          omega
      subst hmt
      have hk0 : k.bitCount ≠ 0 := hdata
      have hbq : b = q.bitCount := by
        have : k.bitCount = b := (h5 hk0).1
        simp only [TrieNode.key] at hmq
        omega
      rw [if_neg (by
        simp only [Bool.or_eq_true, decide_eq_true_eq, beq_iff_eq, not_or]
        exact ⟨by omega, hk0⟩)]
      rw [if_pos (by
        rw [BitArray.compareBits_spec q k q.bitCount hq h4]
        refine ⟨le_refl _, by omega, ?_⟩
        intro j hj
        exact (hex.2 j hj).symm)]
      exact ⟨path, rfl⟩

lemma setRight_left (t : TrieNode N T) (x : Option (TrieNode N T)) :
    (t.setRight x).left = t.left := by
  cases t with
  | node i k b dd l r => rfl

lemma setLeft_right (t : TrieNode N T) (x : Option (TrieNode N T)) :
    (t.setLeft x).right = t.right := by
  cases t with
  | node i k b dd l r => rfl

lemma setRight_key (t : TrieNode N T) (x : Option (TrieNode N T)) :
    (t.setRight x).key = t.key := by
  cases t with
  | node i k b dd l r => rfl

lemma setLeft_key (t : TrieNode N T) (x : Option (TrieNode N T)) :
    (t.setLeft x).key = t.key := by
  cases t with
  | node i k b dd l r => rfl

/-- `plug` of a present subtree always yields a tree. -/
lemma plug_some_isSome : ∀ (path : List (TrieCtx N T)) (x : TrieNode N T),
    ∃ r, plug path (some x) = some r
  | [], x => ⟨x, rfl⟩
  | c :: rest, x => plug_some_isSome rest (c.plugOne (some x))

/-- Through a non-empty path the produced root's key comes from the outermost
context, and the some-ness of the root's children does not depend on the
plugged subtree. -/
lemma plug_shape : ∀ (path : List (TrieCtx N T)) (x y rx ry : TrieNode N T),
    path ≠ [] → plug path (some x) = some rx → plug path (some y) = some ry →
    rx.key = ry.key ∧
      (ry.left.isSome ∧ ry.right.isSome → rx.left.isSome ∧ rx.right.isSome)
  | [], _, _, _, _, hne, _, _ => absurd rfl hne
  | [c], x, y, rx, ry, _, hx, hy => by
    rw [plug, plug, Option.some_inj] at hx hy
    subst hx
    subst hy
    cases hdir : c.cdir <;> simp only [TrieCtx.plugOne, hdir, if_pos, if_neg,
      Bool.false_eq_true, if_false, if_true]
    · exact ⟨rfl, fun h => ⟨rfl, h.2⟩⟩
    · exact ⟨rfl, fun h => ⟨h.1, rfl⟩⟩
  | c :: c2 :: rest, x, y, rx, ry, _, hx, hy => by
    rw [plug] at hx hy
    exact plug_shape (c2 :: rest) (c.plugOne (some x)) (c.plugOne (some y)) rx ry
      (by simp) hx hy

/-- The root-anomaly guard: if the root is a glue node it has both children.
`TrieInv` already forces this for glue nodes of positive depth, and depth `0`
can only occur at the root, so together they give the full glue-node
invariant of spec §3.2. -/
def RootZeroOK (o : Option (TrieNode N T)) : Prop :=
  ∀ rt, o = some rt → rt.key.bitCount = 0 → rt.left.isSome ∧ rt.right.isSome

lemma rootZero_of_plug {path : List (TrieCtx N T)} {x nd rt : TrieNode N T}
    (hroot : plug path (some nd) = some rt)
    (hz : rt.key.bitCount = 0 → rt.left.isSome ∧ rt.right.isSome)
    (hx : path = [] → x.key.bitCount = 0 → x.left.isSome ∧ x.right.isSome) :
    RootZeroOK (plug path (some x)) := by
  intro rt' heq h0
  cases path with
  | nil =>
    rw [plug, Option.some_inj] at heq
    subst heq
    exact hx rfl h0
  | cons c rest =>
    obtain ⟨hkey, himp⟩ := plug_shape (c :: rest) x nd rt' rt (by simp) heq hroot
    exact himp (hz (by rw [← hkey]; exact h0))

/-- A strict descendant in an invariant tree satisfies the invariant at a
positive depth. -/
lemma TrieInv_mem {f : Nat → Bool} {d : Nat} :
    ∀ {t : TrieNode N T}, TrieInv f d t → ∀ {m : TrieNode N T}, m ∈ t.nodesOf →
      m = t ∨ ∃ (f' : Nat → Bool) (d' : Nat), 0 < d' ∧ TrieInv f' d' m
  | .node i k b dd l r, h, m, hm => by
    rw [TrieInv_node] at h
    obtain ⟨g, h1, h2, h3, h4, h5, h6, h7, h8⟩ := h
    rcases mem_nodesOf_elim hm with rfl | ⟨lc, hl, hmem⟩ | ⟨rc, hr, hmem⟩
    · exact Or.inl rfl
    · have hl' : l = some lc := hl
      rcases TrieInv_mem (h7 lc hl') hmem with heq | hsub
      · exact Or.inr ⟨updBit g b false, b + 1, by omega, by rw [heq]; exact h7 lc hl'⟩
      · exact Or.inr hsub
    · have hr' : r = some rc := hr
      rcases TrieInv_mem (h8 rc hr') hmem with heq | hsub
      · exact Or.inr ⟨updBit g b true, b + 1, by omega, by rw [heq]; exact h8 rc hr'⟩
      · exact Or.inr hsub

/-- The whole-tree glue invariant follows from `TrieInv` plus the root
guard. -/
lemma glue_children_all {rt : TrieNode N T} (h : TrieInv (fun _ => false) 0 rt)
    (hr : rt.key.bitCount = 0 → rt.left.isSome ∧ rt.right.isSome) :
    ∀ m ∈ rt.nodesOf, m.key.bitCount = 0 → m.left.isSome ∧ m.right.isSome := by
  intro m hm h0
  rcases TrieInv_mem h hm with rfl | ⟨f', d', hd', hI⟩
  · exact hr h0
  · refine TrieInv_glue_children hI h0 ?_
    have := (TrieInv_bits hI).1
    omega

/-- Demoting a two-child node to glue (clearing its key) keeps the
invariant: the `removeNode` two-children case. -/
lemma TrieInv_demote {f : Nat → Bool} {d : Nat} {t : TrieNode N T}
    (h : TrieInv f d t) (hl : t.left.isSome) (hr : t.right.isSome) :
    TrieInv f d (t.setKey default) := by
  cases t with
  | node i k b dd l r =>
    show TrieInv f d (TrieNode.node i default b dd l r)
    rw [TrieInv_node] at h ⊢
    obtain ⟨g, h1, h2, h3, h4, h5, h6, h7, h8⟩ := h
    exact ⟨g, h1, h2, h3, default_WF,
      fun hdk => absurd default_bitCount hdk,
      fun _ _ => ⟨hl, hr⟩, h7, h8⟩

/-- Insertion of a non-empty key preserves the root glue guard (no structural
invariant needed). -/
theorem lookupNode_rootZero [Inhabited T] (t : BinaryTrie N T) (q : BitArray N)
    (hz : RootZeroOK t.root) (hqnz : q.bitCount ≠ 0) :
    RootZeroOK (BinaryTrie.lookupNode t q).1.root := by
  obtain ⟨root, nn, ni⟩ := t
  cases root with
  | none =>
    intro rt' heq h0
    rw [show (BinaryTrie.lookupNode (⟨none, nn, ni⟩ : BinaryTrie N T) q).1.root =
        some (.node ni q q.bitCount default none none) from rfl,
      Option.some_inj] at heq
    subst heq
    exact absurd h0 hqnz
  | some rt =>
    dsimp only at hz ⊢
    simp only [BinaryTrie.lookupNode]
    set st := (BinaryTrie.descend q rt []).1 with hst_def
    set p := (BinaryTrie.descend q rt []).2 with hp_def
    set cb := (if st.bits < q.bitCount then st.bits else q.bitCount) with hcb_def
    set db := q.firstDifferentBit st.key cb with hdb_def
    set wb := BinaryTrie.walkBack db st p with hwb_def
    set nd := wb.1 with hnd_def
    set path := wb.2 with hpath_def
    have hroot : plug path (some nd) = some rt := by
      rw [hpath_def, hnd_def, hwb_def]
      exact (walkBack_plug db p st).trans ((descend_plug q rt []).trans rfl)
    have hz' : rt.key.bitCount = 0 → rt.left.isSome ∧ rt.right.isSome := hz rt rfl
    by_cases hc1 : db = q.bitCount ∧ nd.bits = q.bitCount
    · rw [if_pos (by simp [hc1.1, hc1.2])]
      by_cases hgl : nd.key.bitCount = 0
      · rw [if_pos (by simp [hgl])]
        dsimp only
        refine rootZero_of_plug hroot hz' ?_
        intro hpath0 h0
        rw [setKey_key] at h0
        exact absurd h0 hqnz
      · rw [if_neg (by simp [hgl])]
        dsimp only
        refine rootZero_of_plug hroot hz' ?_
        intro hpath0 h0
        exact absurd h0 hgl
    · rw [if_neg (by
        simp only [Bool.and_eq_true, beq_iff_eq]
        exact fun h => hc1 ⟨h.1, h.2⟩)]
      by_cases hc2 : nd.bits = db
      · rw [if_pos (by simp [hc2])]
        dsimp only
        refine rootZero_of_plug hroot hz' ?_
        intro hpath0 h0
        have hnd_rt : nd = rt := by
          rw [hpath0, plug, Option.some_inj] at hroot
          exact hroot
        cases hqb : q.bit nd.bits
        · rw [if_neg (by rw [hqb]; exact Bool.false_ne_true)] at h0
          rw [if_neg (show ¬(false = true) from Bool.false_ne_true)]
          rw [setLeft_key] at h0
          obtain ⟨hl, hr⟩ := hz' (by rw [← hnd_rt]; exact h0)
          rw [setLeft_left, setLeft_right, hnd_rt]
          exact ⟨by simp, hr⟩
        · rw [if_pos hqb] at h0
          rw [if_pos rfl]
          rw [setRight_key] at h0
          obtain ⟨hl, hr⟩ := hz' (by rw [← hnd_rt]; exact h0)
          rw [setRight_left, setRight_right, hnd_rt]
          exact ⟨hl, by simp⟩
      · rw [if_neg (by simp [hc2])]
        by_cases hc3 : q.bitCount = db
        · rw [if_pos (by simp [hc3])]
          dsimp only
          refine rootZero_of_plug hroot hz' ?_
          intro hpath0 h0
          cases hqb : st.key.bit q.bitCount
          · rw [if_neg (by rw [hqb]; exact Bool.false_ne_true)] at h0
            exact absurd h0 hqnz
          · rw [if_pos hqb] at h0
            exact absurd h0 hqnz
        · rw [if_neg (by simp [hc3])]
          dsimp only
          refine rootZero_of_plug hroot hz' ?_
          intro hpath0 h0
          cases hqb : q.bit db
          · rw [if_neg (show ¬(false = true) from Bool.false_ne_true)]
            exact ⟨rfl, rfl⟩
          · rw [if_pos rfl]
            exact ⟨rfl, rfl⟩

/-- The complete account of one `removeNode` call on the zipper position of a
node of the tree: both invariants are preserved, the node-count bookkeeping
matches the tree, nothing is allocated, and the surviving ids are a
sub-multiset of the old ones. -/
theorem removeNode_spec [Inhabited T] (t : BinaryTrie N T) (m : TrieNode N T)
    (p' : List (TrieCtx N T)) (f : Nat → Bool) (d : Nat)
    (hI : TrieInv f d m) (hP : PathOK p' f d)
    (hroot : plug p' (some m) = t.root)
    (hcnt : t.numNodes = countO t.root) :
    TrieInvO (BinaryTrie.removeNode t m p').1.root ∧
    (RootZeroOK t.root → RootZeroOK (BinaryTrie.removeNode t m p').1.root) ∧
    (BinaryTrie.removeNode t m p').1.numNodes =
      countO (BinaryTrie.removeNode t m p').1.root ∧
    (BinaryTrie.removeNode t m p').1.numNodes ≤ t.numNodes ∧
    (BinaryTrie.removeNode t m p').1.nextId = t.nextId ∧
    ∃ rem : Multiset Nat,
      idsO t.root = idsO (BinaryTrie.removeNode t m p').1.root + rem := by
  obtain ⟨rt, hrt⟩ : ∃ rt, t.root = some rt := by
    obtain ⟨rt, h'⟩ := plug_some_isSome p' m
    exact ⟨rt, hroot ▸ h'⟩
  have hrootrt : plug p' (some m) = some rt := hroot.trans hrt
  cases m with
  | node i k b dd l r =>
    have hinv := hI
    rw [TrieInv_node] at hinv
    obtain ⟨g, h1, h2, h3, h4, h5, h6, h7, h8⟩ := hinv
    cases l with
    | some lc =>
      cases r with
      | some rc =>
        -- two children: demote to glue
        rw [show BinaryTrie.removeNode t (.node i k b dd (some lc) (some rc)) p' =
            (⟨plug p' (some ((TrieNode.node i k b dd (some lc) (some rc)).setKey default)),
              t.numNodes, t.nextId⟩, []) from rfl]
        dsimp only
        refine ⟨plug_TrieInv p' f d _ hP (TrieInv_demote hI rfl rfl), ?_, ?_, le_refl _,
          rfl, 0, ?_⟩
        · intro hz
          exact rootZero_of_plug hrootrt (hz rt hrt) (fun _ _ => ⟨rfl, rfl⟩)
        · rw [countO_plug, countO_some, setKey_count]
          rw [hcnt, ← hroot, countO_plug, countO_some]
        · rw [← hroot, idsO_plug, idsO_plug, idsO_some, idsO_some, setKey_ids, add_zero]
      | none =>
        -- only a left child: splice it up
        rw [show BinaryTrie.removeNode t (.node i k b dd (some lc) none) p' =
            (⟨plug p' (some lc), t.numNodes - 1, t.nextId⟩, [i]) from rfl]
        dsimp only
        have hIlc : TrieInv f d lc := by
          refine TrieInv_mono (h7 lc rfl) (by omega) ?_
          intro j hj
          rw [updBit, if_neg (by omega)]
          exact (h1 j hj).symm
        have hbitslc := TrieInv_bits (h7 lc rfl)
        refine ⟨plug_TrieInv p' f d _ hP hIlc, ?_, ?_, ?_, rfl, {i}, ?_⟩
        · intro hz
          refine rootZero_of_plug hrootrt (hz rt hrt) ?_
          intro _ h0
          exact TrieInv_glue_children hIlc h0 (by omega)
        · have hc' : t.numNodes = 1 + lc.count + pathCount p' := by
            rw [hcnt, ← hroot, countO_plug, countO_some, count_node, countO_some, countO_none]
            omega
          rw [countO_plug, countO_some]
          omega
        · omega
        · rw [← hroot]
          simp only [idsO_plug, idsO_some, idsOf_node, idsO_none, add_zero]
          simp only [← Multiset.singleton_add]
          abel
    | none =>
      cases r with
      | some rc =>
        -- only a right child: splice it up
        rw [show BinaryTrie.removeNode t (.node i k b dd none (some rc)) p' =
            (⟨plug p' (some rc), t.numNodes - 1, t.nextId⟩, [i]) from rfl]
        dsimp only
        have hIrc : TrieInv f d rc := by
          refine TrieInv_mono (h8 rc rfl) (by omega) ?_
          intro j hj
          rw [updBit, if_neg (by omega)]
          exact (h1 j hj).symm
        have hbitsrc := TrieInv_bits (h8 rc rfl)
        refine ⟨plug_TrieInv p' f d _ hP hIrc, ?_, ?_, ?_, rfl, {i}, ?_⟩
        · intro hz
          refine rootZero_of_plug hrootrt (hz rt hrt) ?_
          intro _ h0
          exact TrieInv_glue_children hIrc h0 (by omega)
        · have hc' : t.numNodes = 1 + rc.count + pathCount p' := by
            rw [hcnt, ← hroot, countO_plug, countO_some, count_node, countO_some, countO_none]
          rw [countO_plug, countO_some]
          omega
        · omega
        · rw [← hroot]
          simp only [idsO_plug, idsO_some, idsOf_node, idsO_none, add_zero, zero_add]
          simp only [← Multiset.singleton_add]
          abel
      | none =>
        -- leaf
        cases p' with
        | nil =>
          rw [show BinaryTrie.removeNode t (.node i k b dd none none) ([] : List (TrieCtx N T)) =
              (⟨none, t.numNodes - 1, t.nextId⟩, [i, i]) from rfl]
          dsimp only
          rw [plug] at hroot
          have hcnt1 : t.numNodes = 1 := by
            rw [hcnt, ← hroot, countO_some, count_node, countO_none]
          refine ⟨fun n hn => absurd hn (by simp), fun _ n hn _ => absurd hn (by simp),
            ?_, by omega, rfl, idsO t.root, ?_⟩
          · rw [countO_none]
            omega
          · rw [idsO_none, zero_add]
        | cons c rest =>
          obtain ⟨fp, dp, g2, hrest, hgfp, hdp, hb8, hwf, hdatac, hglue, hoth, hd, hf⟩ := hP
          have hplugstep : plug (c :: rest) (some (TrieNode.node i k b dd none none)) =
              plug rest (some (c.plugOne (some (TrieNode.node i k b dd none none)))) := rfl
          by_cases hck : c.ckey.bitCount = 0
          · -- the parent is glue: splice the sibling up, delete the parent
            rw [show BinaryTrie.removeNode t (.node i k b dd none none) (c :: rest) =
                (if c.ckey.bitCount == 0 then
                  (⟨plug rest c.cother, t.numNodes - 2, t.nextId⟩, [i, c.cid])
                 else
                  (⟨plug rest (some (c.plugOne none)), t.numNodes - 1, t.nextId⟩, [i]))
              from rfl]
            rw [if_pos (by simp [hck])]
            dsimp only
            cases hco : c.cother with
            | none =>
              -- a missing sibling can only happen at a depth-0 glue root
              have hcb0 : c.cbits = 0 := by
                by_contra hne
                have := hglue hck (by omega)
                rw [hco] at this
                exact absurd this (by simp)
              have hdp0 : dp = 0 := by omega
              subst hdp0
              have hrest0 : rest = [] := PathOK_zero hrest
              subst hrest0
              rw [plug]
              refine ⟨fun n hn => absurd hn (by simp), fun _ n hn _ => absurd hn (by simp),
                ?_, ?_, rfl, idsO t.root, ?_⟩
              · have hc' : t.numNodes = 2 := by
                  rw [hcnt, ← hroot, hplugstep, plug, countO_some, count_plugOne, hco,
                    countO_none, countO_some, count_node, countO_none]
                rw [countO_none]
                omega
              · omega
              · rw [idsO_none, zero_add]
            | some sib =>
              have hIsib : TrieInv fp dp sib := by
                refine TrieInv_mono (hoth sib hco) (by omega) ?_
                intro j hj
                rw [updBit, if_neg (by omega)]
                exact (hgfp j hj).symm
              have hbitsib := TrieInv_bits (hoth sib hco)
              have hrootrt' : plug rest (some (c.plugOne
                  (some (TrieNode.node i k b dd none none)))) = some rt := by
                rw [← hplugstep]
                exact hrootrt
              refine ⟨plug_TrieInv rest fp dp _ hrest hIsib, ?_, ?_, ?_, rfl,
                i ::ₘ {c.cid}, ?_⟩
              · intro hz
                refine rootZero_of_plug hrootrt' (hz rt hrt) ?_
                intro _ h0
                exact TrieInv_glue_children hIsib h0 (by omega)
              · have hc' : t.numNodes = 2 + sib.count + pathCount rest := by
                  rw [hcnt, ← hroot, hplugstep, countO_plug, countO_some, count_plugOne, hco,
                    countO_some, countO_some, count_node, countO_none]
                  omega
                rw [countO_plug, countO_some]
                omega
              · omega
              · rw [← hroot, hplugstep]
                simp only [idsO_plug, idsO_some, ids_plugOne, hco, idsOf_node, idsO_none,
                  add_zero]
                simp only [← Multiset.singleton_add]
                abel
          · -- the parent is a data node: just clear the slot
            rw [show BinaryTrie.removeNode t (.node i k b dd none none) (c :: rest) =
                (if c.ckey.bitCount == 0 then
                  (⟨plug rest c.cother, t.numNodes - 2, t.nextId⟩, [i, c.cid])
                 else
                  (⟨plug rest (some (c.plugOne none)), t.numNodes - 1, t.nextId⟩, [i]))
              from rfl]
            rw [if_neg (by simp [hck])]
            dsimp only
            have hrootrt' : plug rest (some (c.plugOne
                (some (TrieNode.node i k b dd none none)))) = some rt := by
              rw [← hplugstep]
              exact hrootrt
            refine ⟨plug_none_TrieInv ⟨fp, dp, g2, hrest, hgfp, hdp, hb8, hwf, hdatac,
              hglue, hoth, hd, hf⟩ hck, ?_, ?_, ?_, rfl, {i}, ?_⟩
            · intro hz
              refine rootZero_of_plug hrootrt' (hz rt hrt) ?_
              intro _ h0
              rw [plugOne_key] at h0
              exact absurd h0 hck
            · have hc' : t.numNodes = 2 + countO c.cother + pathCount rest := by
                rw [hcnt, ← hroot, hplugstep, countO_plug, countO_some, count_plugOne,
                  countO_some, count_node, countO_none]
                omega
              rw [countO_plug, countO_some, count_plugOne, countO_none]
              omega
            · omega
            · rw [← hroot, hplugstep]
              simp only [idsO_plug, idsO_some, ids_plugOne, idsOf_node, idsO_none,
                add_zero]
              simp only [← Multiset.singleton_add]
              abel

/-- The complete account of one `erase` call on an invariant trie: the
invariants and the bookkeeping are preserved, nothing is allocated, the
call succeeds exactly when a data node stores the queried key, and a failed
call leaves the trie untouched. -/
theorem erase_spec [Inhabited T] (t : BinaryTrie N T) (q : BitArray N)
    (ht : TrieInvO t.root) (hq : q.WF)
    (hcnt : t.numNodes = countO t.root) :
    TrieInvO (BinaryTrie.erase t q).1.root ∧
    (RootZeroOK t.root → RootZeroOK (BinaryTrie.erase t q).1.root) ∧
    (BinaryTrie.erase t q).1.numNodes = countO (BinaryTrie.erase t q).1.root ∧
    (BinaryTrie.erase t q).1.numNodes ≤ t.numNodes ∧
    (BinaryTrie.erase t q).1.nextId = t.nextId ∧
    (∃ rem : Multiset Nat,
      idsO t.root = idsO (BinaryTrie.erase t q).1.root + rem) ∧
    ((BinaryTrie.erase t q).2.2 = true ↔
      ∃ m ∈ BinaryTrie.trieNodes t, DataN m ∧ ExactFor m q) ∧
    ((BinaryTrie.erase t q).2.2 = false →
      (BinaryTrie.erase t q).1 = t ∧ (BinaryTrie.erase t q).2.1 = []) := by
  obtain ⟨root, nn, ni⟩ := t
  cases root with
  | none =>
    rw [show BinaryTrie.erase (⟨none, nn, ni⟩ : BinaryTrie N T) q =
        ((⟨none, nn, ni⟩ : BinaryTrie N T), [], false) from rfl]
    dsimp only
    refine ⟨fun n hn => absurd hn (by simp), fun hz => hz,
      hcnt, le_refl _, rfl, ⟨0, by rw [add_zero]⟩, ?_, fun _ => ⟨rfl, rfl⟩⟩
    constructor
    · intro h
      exact absurd h (by simp)
    · rintro ⟨m, hm, -⟩
      exact absurd hm (by simp [BinaryTrie.trieNodes, nodesO_none])
  | some rt =>
    have hrtI : TrieInv (fun _ => false) 0 rt := ht rt rfl
    cases hs : BinaryTrie.searchExactAux q rt [] with
    | none =>
      simp only [BinaryTrie.erase, hs]
      refine ⟨ht, fun hz => hz, hcnt, le_refl _, by trivial, ⟨0, by rw [add_zero]⟩, ?_,
        fun _ => ⟨by trivial, by trivial⟩⟩
      constructor
      · intro h
        exact absurd h (by simp)
      · rintro ⟨m, hm, hdata, hex⟩
        have hm' : m ∈ rt.nodesOf := hm
        obtain ⟨p', hp'⟩ :=
          searchExactAux_finds q hq rt [] (fun _ => false) 0 m hrtI hm' hdata hex
        rw [hs] at hp'
        exact absurd hp' (by simp)
    | some pr =>
      obtain ⟨nodem, pathm⟩ := pr
      obtain ⟨f', d', hIm, hPm, hplugm, hmem, hDm, hbitsm, hexm⟩ :=
        searchExactAux_spec q hq rt [] (fun _ => false) 0 nodem pathm hrtI rfl hs
      simp only [BinaryTrie.erase, hs]
      have hroot' : plug pathm (some nodem) =
          (⟨some rt, nn, ni⟩ : BinaryTrie N T).root := by
        rw [hplugm]
        rfl
      obtain ⟨c1, c2, c3, c4, c5, rem, c6⟩ :=
        removeNode_spec (⟨some rt, nn, ni⟩ : BinaryTrie N T) nodem pathm f' d'
          hIm hPm hroot' hcnt
      refine ⟨c1, c2, c3, c4, c5, ⟨rem, c6⟩, ?_, ?_⟩
      · exact ⟨fun _ => ⟨nodem, hmem, hDm, hexm⟩, fun _ => by trivial⟩
      · intro h
        exact absurd h (by simp)

lemma bestDescend_eq (q : BitArray N) (i : Nat) (k : BitArray N) (b : Nat) (dd : T)
    (l r : Option (TrieNode N T)) (stack : List (TrieNode N T)) :
    BinaryTrie.bestDescend q (.node i k b dd l r) stack =
      if b < q.bitCount then
        let stack' := if k.bitCount ≠ 0 then (.node i k b dd l r) :: stack else stack
        if q.bit b then
          match r with
          | none => stack'
          | some rc => BinaryTrie.bestDescend q rc stack'
        else
          match l with
          | none => stack'
          | some lc => BinaryTrie.bestDescend q lc stack'
      else
        if k.bitCount ≠ 0 then (.node i k b dd l r) :: stack else stack := by
  rw [BinaryTrie.bestDescend.eq_def]

/-- The descent of `searchBest` only ever pushes. -/
lemma bestDescend_sub (q : BitArray N) :
    ∀ (t : TrieNode N T) (stack : List (TrieNode N T)),
      ∀ s ∈ stack, s ∈ BinaryTrie.bestDescend q t stack
  | .node i k b dd l r, stack => by
    intro s hs
    rw [bestDescend_eq]
    split
    · dsimp only
      split
      · cases r with
        | none =>
          show s ∈ (if k.bitCount ≠ 0
            then TrieNode.node i k b dd l none :: stack else stack)
          split
          · exact List.mem_cons_of_mem _ hs
          · exact hs
        | some rc =>
          show s ∈ BinaryTrie.bestDescend q rc (if k.bitCount ≠ 0
            then TrieNode.node i k b dd l (some rc) :: stack else stack)
          refine bestDescend_sub q rc _ s ?_
          split
          · exact List.mem_cons_of_mem _ hs
          · exact hs
      · cases l with
        | none =>
          show s ∈ (if k.bitCount ≠ 0
            then TrieNode.node i k b dd none r :: stack else stack)
          split
          · exact List.mem_cons_of_mem _ hs
          · exact hs
        | some lc =>
          show s ∈ BinaryTrie.bestDescend q lc (if k.bitCount ≠ 0
            then TrieNode.node i k b dd (some lc) r :: stack else stack)
          refine bestDescend_sub q lc _ s ?_
          split
          · exact List.mem_cons_of_mem _ hs
          · exact hs
    · split
      · exact List.mem_cons_of_mem _ hs
      · exact hs

/-- Everything the descent of `searchBest` stacks is a data node of the
tree. -/
lemma bestDescend_mem (q : BitArray N) :
    ∀ (t : TrieNode N T) (stack : List (TrieNode N T)),
      ∀ s ∈ BinaryTrie.bestDescend q t stack,
        s ∈ stack ∨ (s ∈ t.nodesOf ∧ DataN s)
  | .node i k b dd l r, stack => by
    intro s hs
    rw [bestDescend_eq] at hs
    split at hs
    · dsimp only at hs
      split at hs
      · cases r with
        | none =>
          replace hs : s ∈ (if k.bitCount ≠ 0
              then TrieNode.node i k b dd l none :: stack else stack) := hs
          split at hs
          next hk =>
            rcases List.mem_cons.1 hs with rfl | h''
            · exact Or.inr ⟨self_mem_nodesOf _, hk⟩
            · exact Or.inl h''
          next hk => exact Or.inl hs
        | some rc =>
          replace hs : s ∈ BinaryTrie.bestDescend q rc (if k.bitCount ≠ 0
              then TrieNode.node i k b dd l (some rc) :: stack else stack) := hs
          rcases bestDescend_mem q rc _ s hs with h'' | ⟨hmem, hdat⟩
          · split at h''
            next hk =>
              rcases List.mem_cons.1 h'' with rfl | h3
              · exact Or.inr ⟨self_mem_nodesOf _, hk⟩
              · exact Or.inl h3
            next hk => exact Or.inl h''
          · refine Or.inr ⟨mem_nodesOf_right
              (show (TrieNode.node i k b dd l (some rc) : TrieNode N T).right = some rc
                from rfl) hmem, hdat⟩
      · cases l with
        | none =>
          replace hs : s ∈ (if k.bitCount ≠ 0
              then TrieNode.node i k b dd none r :: stack else stack) := hs
          split at hs
          next hk =>
            rcases List.mem_cons.1 hs with rfl | h''
            · exact Or.inr ⟨self_mem_nodesOf _, hk⟩
            · exact Or.inl h''
          next hk => exact Or.inl hs
        | some lc =>
          replace hs : s ∈ BinaryTrie.bestDescend q lc (if k.bitCount ≠ 0
              then TrieNode.node i k b dd (some lc) r :: stack else stack) := hs
          rcases bestDescend_mem q lc _ s hs with h'' | ⟨hmem, hdat⟩
          · split at h''
            next hk =>
              rcases List.mem_cons.1 h'' with rfl | h3
              · exact Or.inr ⟨self_mem_nodesOf _, hk⟩
              · exact Or.inl h3
            next hk => exact Or.inl h''
          · refine Or.inr ⟨mem_nodesOf_left
              (show (TrieNode.node i k b dd (some lc) r : TrieNode N T).left = some lc
                from rfl) hmem, hdat⟩
    · split at hs
      next hk =>
        rcases List.mem_cons.1 hs with rfl | h''
        · exact Or.inr ⟨self_mem_nodesOf _, hk⟩
        · exact Or.inl h''
      next hk => exact Or.inl hs

/-- Every stored data node whose key is a prefix of the query gets stacked by
the descent of `searchBest`. -/
lemma bestDescend_complete (q : BitArray N) :
    ∀ (t : TrieNode N T) (stack : List (TrieNode N T)) (f : Nat → Bool) (d : Nat),
      TrieInv f d t → ∀ m ∈ t.nodesOf, DataN m → PrefixFor m q →
      m ∈ BinaryTrie.bestDescend q t stack
  | .node i k b dd l r, stack, f, d, h, m, hm, hdata, hpre => by
    have hinv := h
    rw [TrieInv_node] at hinv
    obtain ⟨g, h1, h2, h3, h4, h5, h6, h7, h8⟩ := hinv
    have hkb : m.key.bitCount = m.bits := (TrieInv_data_agrees h hm hdata).2.1
    rw [bestDescend_eq]
    by_cases hblt : b < q.bitCount
    · rw [if_pos hblt]
      dsimp only
      rcases mem_nodesOf_elim hm with rfl | ⟨lc, hl, hmem⟩ | ⟨rc, hr, hmem⟩
      · -- the node itself is pushed, and pushes persist
        have hself : TrieNode.node i k b dd l r ∈
            (if k.bitCount ≠ 0 then (TrieNode.node i k b dd l r) :: stack else stack) := by
          rw [if_pos (show k.bitCount ≠ 0 from hdata)]
          exact List.mem_cons_self _ _
        split
        · cases r with
          | none => exact hself
          | some rc => exact bestDescend_sub q rc _ _ hself
        · cases l with
          | none => exact hself
          | some lc => exact bestDescend_sub q lc _ _ hself
      · have hIl := h7 lc hl
        have hmbit : m.key.bit b = false := by
          have hbits := bits_le_of_mem hIl hmem
          have hlcb := (TrieInv_bits hIl).1
          have := (TrieInv_data_agrees hIl hmem hdata).2.2.2 b (by omega)
          rw [this, updBit, if_pos rfl]
        have hqbit : q.bit b = false := by
          rw [← hpre.2 b (by
            have hbits := bits_le_of_mem hIl hmem
            have hlcb := (TrieInv_bits hIl).1
            omega), hmbit]
        rw [hqbit]
        rw [if_neg (show ¬(false = true) from Bool.false_ne_true)]
        have hl' : l = some lc := hl
        rw [hl']
        exact bestDescend_complete q lc _ _ _ hIl m hmem hdata hpre
      · have hIr := h8 rc hr
        have hmbit : m.key.bit b = true := by
          have hbits := bits_le_of_mem hIr hmem
          have hrcb := (TrieInv_bits hIr).1
          have := (TrieInv_data_agrees hIr hmem hdata).2.2.2 b (by omega)
          rw [this, updBit, if_pos rfl]
        have hqbit : q.bit b = true := by
          rw [← hpre.2 b (by
            have hbits := bits_le_of_mem hIr hmem
            have hrcb := (TrieInv_bits hIr).1
            omega), hmbit]
        rw [hqbit, if_pos rfl]
        have hr' : r = some rc := hr
        rw [hr']
        exact bestDescend_complete q rc _ _ _ hIr m hmem hdata hpre
    · rw [if_neg hblt]
      have hmt : m = TrieNode.node i k b dd l r := by
        rcases mem_nodesOf_elim hm with rfl | ⟨lc, hl, hmem⟩ | ⟨rc, hr, hmem⟩
        · rfl
        · exfalso
          have hIl := h7 lc hl
          have hlb : b + 1 ≤ lc.bits := (TrieInv_bits hIl).1
          have hlm : lc.bits ≤ m.bits := bits_le_of_mem hIl hmem
          have := hpre.1
          omega
        · exfalso
          have hIr := h8 rc hr
          have hrb : b + 1 ≤ rc.bits := (TrieInv_bits hIr).1
          have hrm : rc.bits ≤ m.bits := bits_le_of_mem hIr hmem
          have := hpre.1
          omega
      subst hmt
      rw [if_pos (show k.bitCount ≠ 0 from hdata)]
      exact List.mem_cons_self _ _

/-- The stack built by the descent is strictly ordered: deeper nodes sit
closer to the head. -/
lemma bestDescend_sorted (q : BitArray N) :
    ∀ (t : TrieNode N T) (stack : List (TrieNode N T)) (f : Nat → Bool) (d : Nat),
      TrieInv f d t →
      List.Pairwise (fun a s : TrieNode N T => s.bits < a.bits) stack →
      (∀ s ∈ stack, s.bits < t.bits) →
      List.Pairwise (fun a s : TrieNode N T => s.bits < a.bits)
        (BinaryTrie.bestDescend q t stack)
  | .node i k b dd l r, stack, f, d, h, hpw, hlt => by
    have hinv := h
    rw [TrieInv_node] at hinv
    obtain ⟨g, h1, h2, h3, h4, h5, h6, h7, h8⟩ := hinv
    have hpw' : List.Pairwise (fun a s : TrieNode N T => s.bits < a.bits)
        (if k.bitCount ≠ 0 then (TrieNode.node i k b dd l r) :: stack else stack) := by
      split
      · exact List.pairwise_cons.2 ⟨hlt, hpw⟩
      · exact hpw
    have hlt' : ∀ b', b < b' → ∀ s ∈ (if k.bitCount ≠ 0
        then (TrieNode.node i k b dd l r) :: stack else stack), s.bits < b' := by
      intro b' hb s hsm
      have e : (TrieNode.node i k b dd l r : TrieNode N T).bits = b := rfl
      split at hsm
      · rcases List.mem_cons.1 hsm with rfl | hsm'
        · exact hb
        · have := hlt s hsm'
          omega
      · have := hlt s hsm
        omega
    rw [bestDescend_eq]
    split
    · dsimp only
      split
      · cases r with
        | none => exact hpw'
        | some rc =>
          have hIr := h8 rc rfl
          exact bestDescend_sorted q rc _ _ _ hIr hpw'
            (hlt' rc.bits (by have := (TrieInv_bits hIr).1; omega))
      · cases l with
        | none => exact hpw'
        | some lc =>
          have hIl := h7 lc rfl
          exact bestDescend_sorted q lc _ _ _ hIl hpw'
            (hlt' lc.bits (by have := (TrieInv_bits hIl).1; omega))
    · exact hpw'

/-- The pop loop returns a stack entry passing the match test. -/
lemma bestPop_mem (q : BitArray N) :
    ∀ (stack : List (TrieNode N T)) (m : TrieNode N T),
      BinaryTrie.bestPop q stack = some m →
      m ∈ stack ∧
        (q.compareBits m.key m.key.bitCount && decide (m.key.bitCount ≤ q.bitCount))
          = true
  | [], m, h => absurd h (by rw [BinaryTrie.bestPop]; simp)
  | n :: rest, m, h => by
    rw [BinaryTrie.bestPop] at h
    split at h
    next htest =>
      rw [Option.some_inj] at h
      subst h
      exact ⟨List.mem_cons_self _ _, htest⟩
    next htest =>
      obtain ⟨hmem, ht'⟩ := bestPop_mem q rest m h
      exact ⟨List.mem_cons_of_mem _ hmem, ht'⟩

/-- When the pop loop fails, no stack entry passes the match test. -/
lemma bestPop_none (q : BitArray N) :
    ∀ (stack : List (TrieNode N T)),
      BinaryTrie.bestPop q stack = none →
      ∀ s ∈ stack,
        ¬((q.compareBits s.key s.key.bitCount && decide (s.key.bitCount ≤ q.bitCount))
          = true)
  | [], _, s, hs => absurd hs (by simp)
  | n :: rest, h, s, hs => by
    rw [BinaryTrie.bestPop] at h
    split at h
    next htest => exact absurd h (by simp)
    next htest =>
      rcases List.mem_cons.1 hs with rfl | hs'
      · exact htest
      · exact bestPop_none q rest h s hs'

/-- On a strictly ordered stack the pop loop returns the deepest passing
entry. -/
lemma bestPop_first (q : BitArray N) :
    ∀ (stack : List (TrieNode N T)) (m : TrieNode N T),
      List.Pairwise (fun a s : TrieNode N T => s.bits < a.bits) stack →
      BinaryTrie.bestPop q stack = some m →
      ∀ s ∈ stack,
        (q.compareBits s.key s.key.bitCount && decide (s.key.bitCount ≤ q.bitCount))
          = true →
        s.bits ≤ m.bits
  | [], m, _, h => absurd h (by rw [BinaryTrie.bestPop]; simp)
  | n :: rest, m, hpw, h => by
    rw [BinaryTrie.bestPop] at h
    obtain ⟨hhead, hpw'⟩ := List.pairwise_cons.1 hpw
    split at h
    next htest =>
      rw [Option.some_inj] at h
      subst h
      intro s hs _
      rcases List.mem_cons.1 hs with rfl | hs'
      · exact le_refl _
      · exact le_of_lt (hhead s hs')
    next htest =>
      intro s hs hstest
      rcases List.mem_cons.1 hs with rfl | hs'
      · exact absurd hstest htest
      · exact bestPop_first q rest m hpw' h s hs' hstest

/-- The `searchBest` match test is exactly `PrefixFor`, for well-formed
keys. -/
lemma bestTest_iff {q : BitArray N} (hq : q.WF) {s : TrieNode N T}
    (hswf : s.key.WF) :
    ((q.compareBits s.key s.key.bitCount && decide (s.key.bitCount ≤ q.bitCount))
      = true) ↔ PrefixFor s q := by
  rw [Bool.and_eq_true, decide_eq_true_eq,
    BitArray.compareBits_spec q s.key s.key.bitCount hq hswf]
  constructor
  · rintro ⟨⟨hlen, -, hag⟩, -⟩
    exact ⟨hlen, fun j hj => (hag j hj).symm⟩
  · rintro ⟨hlen, hag⟩
    exact ⟨⟨hlen, le_refl _, fun j hj => (hag j hj).symm⟩, hlen⟩

/-- `BinaryTrie::searchBest` is a correct longest-prefix-match: a hit is a
stored data node whose key is a prefix of the query and is at least as long
as every other stored prefix of the query; a miss means no stored key is a
prefix of the query. -/
theorem searchBest_spec (t : BinaryTrie N T) (q : BitArray N)
    (ht : TrieInvO t.root) (hq : q.WF) :
    (∀ m, BinaryTrie.searchBest t q = some m →
      m ∈ BinaryTrie.trieNodes t ∧ DataN m ∧ PrefixFor m q ∧
      ∀ m' ∈ BinaryTrie.trieNodes t, DataN m' → PrefixFor m' q →
        m'.key.bitCount ≤ m.key.bitCount) ∧
    (BinaryTrie.searchBest t q = none →
      ∀ m' ∈ BinaryTrie.trieNodes t, DataN m' → ¬PrefixFor m' q) := by
  obtain ⟨root, nn, ni⟩ := t
  cases root with
  | none =>
    constructor
    · intro m hm
      exact absurd hm (by rw [show BinaryTrie.searchBest
        (⟨none, nn, ni⟩ : BinaryTrie N T) q = none from rfl]; simp)
    · intro _ m' hm'
      exact absurd hm' (by simp [BinaryTrie.trieNodes, nodesO_none])
  | some rt =>
    have hrtI : TrieInv (fun _ => false) 0 rt := ht rt rfl
    have hsorted := bestDescend_sorted q rt [] (fun _ => false) 0 hrtI
      List.Pairwise.nil (by intro s hs; cases hs)
    have hun : BinaryTrie.searchBest (⟨some rt, nn, ni⟩ : BinaryTrie N T) q =
        BinaryTrie.bestPop q (BinaryTrie.bestDescend q rt []) := rfl
    constructor
    · intro m hm
      rw [hun] at hm
      obtain ⟨hmstk, hmtest⟩ := bestPop_mem q _ m hm
      rcases bestDescend_mem q rt [] m hmstk with h' | ⟨hmem, hdat⟩
      · exact absurd h' (by simp)
      have hmwf : m.key.WF := (TrieInv_data_agrees hrtI hmem hdat).1
      have hmpre : PrefixFor m q := (bestTest_iff hq hmwf).1 hmtest
      refine ⟨hmem, hdat, hmpre, ?_⟩
      intro m' hm' hdat' hpre'
      have hm'stk : m' ∈ BinaryTrie.bestDescend q rt [] :=
        bestDescend_complete q rt [] (fun _ => false) 0 hrtI m' hm' hdat' hpre'
      have hm'wf : m'.key.WF := (TrieInv_data_agrees hrtI hm' hdat').1
      have hm'test := (bestTest_iff hq hm'wf).2 hpre'
      have hbits := bestPop_first q _ m hsorted hm m' hm'stk hm'test
      have e1 : m.key.bitCount = m.bits := (TrieInv_data_agrees hrtI hmem hdat).2.1
      have e2 : m'.key.bitCount = m'.bits := (TrieInv_data_agrees hrtI hm' hdat').2.1
      omega
    · intro hnone m' hm' hdat' hpre'
      rw [hun] at hnone
      have hm'stk : m' ∈ BinaryTrie.bestDescend q rt [] :=
        bestDescend_complete q rt [] (fun _ => false) 0 hrtI m' hm' hdat' hpre'
      have hm'wf : m'.key.WF := (TrieInv_data_agrees hrtI hm' hdat').1
      have hm'test := (bestTest_iff hq hm'wf).2 hpre'
      exact bestPop_none q _ hnone m' hm'stk hm'test

/-- The iterative deletion loop of `clear` frees exactly the ids of the
current node, the stacked subtrees, and whatever was freed already — each
once. -/
lemma clearLoop_ids (n : TrieNode N T) (stk : List (TrieNode N T)) (acc : List Nat) :
    (↑(BinaryTrie.clearLoop n stk acc) : Multiset Nat) =
      ↑acc + n.idsOf + (stk.map TrieNode.idsOf).sum := by
  induction n, stk, acc using BinaryTrie.clearLoop.induct with
  | case1 i k b dd stk acc acc' lc rc ih =>
    rw [show BinaryTrie.clearLoop (TrieNode.node i k b dd (some lc) (some rc)) stk acc =
      BinaryTrie.clearLoop lc (rc :: stk) (acc ++ [i]) from by rw [BinaryTrie.clearLoop]]
    rw [ih, idsOf_node, idsO_some, idsO_some, ← Multiset.coe_add, Multiset.coe_singleton]
    simp only [List.map_cons, List.sum_cons]
    rw [← Multiset.singleton_add]
    abel
  | case2 i k b dd stk acc acc' lc ih =>
    rw [show BinaryTrie.clearLoop (TrieNode.node i k b dd (some lc) none) stk acc =
      BinaryTrie.clearLoop lc stk (acc ++ [i]) from by rw [BinaryTrie.clearLoop]]
    rw [ih, idsOf_node, idsO_some, idsO_none, ← Multiset.coe_add, Multiset.coe_singleton]
    rw [← Multiset.singleton_add]
    abel
  | case3 i k b dd stk acc acc' rc ih =>
    rw [show BinaryTrie.clearLoop (TrieNode.node i k b dd none (some rc)) stk acc =
      BinaryTrie.clearLoop rc stk (acc ++ [i]) from by rw [BinaryTrie.clearLoop]]
    rw [ih, idsOf_node, idsO_none, idsO_some, ← Multiset.coe_add, Multiset.coe_singleton]
    rw [← Multiset.singleton_add]
    abel
  | case4 i k b dd acc acc' top rest ih =>
    rw [show BinaryTrie.clearLoop (TrieNode.node i k b dd none none) (top :: rest) acc =
      BinaryTrie.clearLoop top rest (acc ++ [i]) from by rw [BinaryTrie.clearLoop]]
    rw [ih, idsOf_node, ← Multiset.coe_add, Multiset.coe_singleton]
    simp only [List.map_cons, List.sum_cons]
    rw [← Multiset.singleton_add]
    abel
  | case5 i k b dd acc =>
    rw [show BinaryTrie.clearLoop (TrieNode.node i k b dd none none) [] acc =
      acc ++ [i] from by rw [BinaryTrie.clearLoop]]
    rw [idsOf_node, ← Multiset.coe_add, Multiset.coe_singleton]
    simp only [List.map_nil, List.sum_nil]
    rw [← Multiset.singleton_add]
    abel

/-- The bundle of facts maintained by every trie operation: the structural
invariant, accurate `numNodes` bookkeeping, and a well-behaved allocator
(all live ids distinct and below the allocation counter). -/
def GoodTrie (t : BinaryTrie N T) : Prop :=
  TrieInvO t.root ∧ t.numNodes = countO t.root ∧
    (BinaryTrie.trieIds t).Nodup ∧ ∀ j ∈ BinaryTrie.trieIds t, j < t.nextId

/-- Tries reachable from `BinaryTrie()` by `insert_or_get` (with any
well-formed key, the empty one included) and `erase`. `clear` is not a
generator: the source's `clear()` leaves `root` pointing at the freed node
graph, so every subsequent container operation dereferences freed memory and
has no defined behaviour to model. -/
inductive Reachable [Inhabited T] : BinaryTrie N T → Prop where
  | base : Reachable BinaryTrie.mkEmpty
  | ins (t : BinaryTrie N T) (q : BitArray N) (hq : q.WF) (h : Reachable t) :
      Reachable (BinaryTrie.lookupNode t q).1
  | del (t : BinaryTrie N T) (q : BitArray N) (hq : q.WF) (h : Reachable t) :
      Reachable (BinaryTrie.erase t q).1

/-- Tries reachable when every inserted key is non-empty (`len ≥ 1`). -/
inductive ReachableNZ [Inhabited T] : BinaryTrie N T → Prop where
  | base : ReachableNZ BinaryTrie.mkEmpty
  | ins (t : BinaryTrie N T) (q : BitArray N) (hq : q.WF) (hnz : q.bitCount ≠ 0)
      (h : ReachableNZ t) : ReachableNZ (BinaryTrie.lookupNode t q).1
  | del (t : BinaryTrie N T) (q : BitArray N) (hq : q.WF) (h : ReachableNZ t) :
      ReachableNZ (BinaryTrie.erase t q).1

lemma reachableNZ_reachable [Inhabited T] {t : BinaryTrie N T}
    (h : ReachableNZ t) : Reachable t := by
  induction h with
  | base => exact Reachable.base
  | ins t q hq hnz h ih => exact Reachable.ins t q hq ih
  | del t q hq h ih => exact Reachable.del t q hq ih

/-- Every reachable trie carries the maintained bundle of invariants. -/
theorem reachable_good [Inhabited T] {t : BinaryTrie N T}
    (h : Reachable t) : GoodTrie t := by
  induction h with
  | base =>
    refine ⟨?_, ?_, ?_, ?_⟩
    · exact fun n hn => by cases hn
    · rfl
    · exact Multiset.nodup_zero
    · intro j hj
      exact absurd hj (Multiset.not_mem_zero j)
  | ins t q hq h ih =>
    obtain ⟨hI, hC, hN, hB⟩ := ih
    obtain ⟨c1, c2, c3, c4, c5, ⟨fresh, hfr, hfrN, hfrB⟩, -⟩ := lookupNode_spec t q hI hq
    refine ⟨c1, by omega, ?_, ?_⟩
    · show (idsO (BinaryTrie.lookupNode t q).1.root).Nodup
      rw [hfr]
      rw [Multiset.nodup_add]
      refine ⟨hN, hfrN, ?_⟩
      rw [Multiset.disjoint_left]
      intro a ha ha'
      have h1 := hB a ha
      have h2 := (hfrB a ha').1
      omega
    · intro j hj
      rw [show BinaryTrie.trieIds (BinaryTrie.lookupNode t q).1 =
        idsO (BinaryTrie.lookupNode t q).1.root from rfl, hfr] at hj
      rcases Multiset.mem_add.1 hj with hj | hj
      · have := hB j hj
        omega
      · exact (hfrB j hj).2
  | del t q hq h ih =>
    obtain ⟨hI, hC, hN, hB⟩ := ih
    obtain ⟨c1, c2, c3, c4, c5, ⟨rem, hrem⟩, -, -⟩ := erase_spec t q hI hq hC
    have hle : idsO (BinaryTrie.erase t q).1.root ≤ idsO t.root :=
      Multiset.le_iff_exists_add.2 ⟨rem, hrem⟩
    refine ⟨c1, c3, Multiset.nodup_of_le hle hN, ?_⟩
    intro j hj
    have := hB j (Multiset.mem_of_le hle hj)
    omega

/-- Under non-empty insertion keys the root glue guard also holds. -/
theorem reachableNZ_rootZero [Inhabited T] {t : BinaryTrie N T}
    (h : ReachableNZ t) : RootZeroOK t.root := by
  induction h with
  | base => exact fun rt hrt => by cases hrt
  | ins t q hq hnz h ih => exact lookupNode_rootZero t q ih hnz
  | del t q hq h ih =>
    obtain ⟨hI, hC, -, -⟩ := reachable_good (reachableNZ_reachable h)
    obtain ⟨-, c2, -⟩ := erase_spec t q hI hq hC
    exact c2 ih

/-- Unconditional allocation bound for one insertion: at most two nodes (and
two heap ids) per call, with `numNodes` never decreasing. -/
lemma lookupNode_size [Inhabited T] (t : BinaryTrie N T) (q : BitArray N) :
    t.numNodes ≤ (BinaryTrie.lookupNode t q).1.numNodes ∧
    (BinaryTrie.lookupNode t q).1.numNodes ≤ t.numNodes + 2 := by
  obtain ⟨root, nn, ni⟩ := t
  cases root with
  | none =>
    refine ⟨?_, ?_⟩
    · show nn ≤ nn + 1
      omega
    · show nn + 1 ≤ nn + 2
      omega
  | some rt =>
    simp only [BinaryTrie.lookupNode]
    set st := (BinaryTrie.descend q rt []).1 with hst_def
    set p := (BinaryTrie.descend q rt []).2 with hp_def
    set cb := (if st.bits < q.bitCount then st.bits else q.bitCount) with hcb_def
    set db := q.firstDifferentBit st.key cb with hdb_def
    set wb := BinaryTrie.walkBack db st p with hwb_def
    set nd := wb.1 with hnd_def
    set path := wb.2 with hpath_def
    by_cases hc1 : db = q.bitCount ∧ nd.bits = q.bitCount
    · rw [if_pos (by simp [hc1.1, hc1.2])]
      refine ⟨?_, ?_⟩
      · show nn ≤ nn
        omega
      · show nn ≤ nn + 2
        omega
    · rw [if_neg (by
        simp only [Bool.and_eq_true, beq_iff_eq]
        exact fun h => hc1 ⟨h.1, h.2⟩)]
      by_cases hc2 : nd.bits = db
      · rw [if_pos (by simp [hc2])]
        refine ⟨?_, ?_⟩
        · show nn ≤ nn + 1
          omega
        · show nn + 1 ≤ nn + 2
          omega
      · rw [if_neg (by simp [hc2])]
        by_cases hc3 : q.bitCount = db
        · rw [if_pos (by simp [hc3])]
          refine ⟨?_, ?_⟩
          · show nn ≤ nn + 1
            omega
          · show nn + 1 ≤ nn + 2
            omega
        · rw [if_neg (by simp [hc3])]
          refine ⟨?_, ?_⟩
          · show nn ≤ nn + 2
            omega
          · show nn + 2 ≤ nn + 2
            omega

/-- `removeNode` frees but never allocates. -/
lemma removeNode_size [Inhabited T] (t : BinaryTrie N T) (m : TrieNode N T)
    (p' : List (TrieCtx N T)) :
    (BinaryTrie.removeNode t m p').1.numNodes ≤ t.numNodes ∧
    (BinaryTrie.removeNode t m p').1.nextId = t.nextId := by
  cases m with
  | node i k b dd l r =>
    cases l with
    | some lc =>
      cases r with
      | some rc => exact ⟨le_refl _, rfl⟩
      | none => exact ⟨show t.numNodes - 1 ≤ t.numNodes by omega, rfl⟩
    | none =>
      cases r with
      | some rc => exact ⟨show t.numNodes - 1 ≤ t.numNodes by omega, rfl⟩
      | none =>
        cases p' with
        | nil => exact ⟨show t.numNodes - 1 ≤ t.numNodes by omega, rfl⟩
        | cons c rest =>
          rw [show BinaryTrie.removeNode t (.node i k b dd none none) (c :: rest) =
              (if c.ckey.bitCount == 0 then
                (⟨plug rest c.cother, t.numNodes - 2, t.nextId⟩, [i, c.cid])
               else
                (⟨plug rest (some (c.plugOne none)), t.numNodes - 1, t.nextId⟩, [i]))
            from rfl]
          split
          · exact ⟨show t.numNodes - 2 ≤ t.numNodes by omega, rfl⟩
          · exact ⟨show t.numNodes - 1 ≤ t.numNodes by omega, rfl⟩

/-- `erase` frees but never allocates, unconditionally. -/
lemma erase_size [Inhabited T] (t : BinaryTrie N T) (q : BitArray N) :
    (BinaryTrie.erase t q).1.numNodes ≤ t.numNodes ∧
    (BinaryTrie.erase t q).1.nextId = t.nextId := by
  obtain ⟨root, nn, ni⟩ := t
  cases root with
  | none => exact ⟨le_refl _, rfl⟩
  | some rt =>
    cases hs : BinaryTrie.searchExactAux q rt [] with
    | none =>
      simp only [BinaryTrie.erase, hs]
      exact ⟨le_refl _, by trivial⟩
    | some pr =>
      obtain ⟨nodem, pathm⟩ := pr
      simp only [BinaryTrie.erase, hs]
      exact removeNode_size _ nodem pathm

/-- Folding insertions over the empty trie: at most two live nodes per
inserted key. -/
lemma fold_insert_size [Inhabited T] :
    ∀ (ks : List (BitArray N)) (t : BinaryTrie N T),
      (ks.foldl (fun t q => (BinaryTrie.lookupNode t q).1) t).numNodes ≤
        t.numNodes + 2 * ks.length
  | [], t => by
    rw [List.foldl_nil]
    omega
  | q :: ks, t => by
    rw [List.foldl_cons]
    have h1 := fold_insert_size ks (BinaryTrie.lookupNode t q).1
    have h2 := (lookupNode_size t q).2
    rw [List.length_cons]
    omega

end TrieInvariant

section Claims

variable {N : Nat} {T : Type}

/-- C9 (amended): `operator<` is lexicographic by length first; at equal
length the verdict is that of `strncmp` over the covered bytes — some byte
position below the compared byte count strictly decides, with all earlier
bytes equal AND NON-ZERO (`strncmp` stops at a NUL byte, so bytes after a
zero byte are never compared; the original byte-lexicographic reading is
refuted by `lt_byte_order_cex`). -/
theorem lt_strncmp_order (a b : BitArray N) :
    BitArray.lt a b = true ↔
      a.bitCount < b.bitCount ∨
        (a.bitCount = b.bitCount ∧
          ∃ i, i < BitArray.getByteCount a.bitCount ∧
            (∀ j, j < i → a.bits.getD j 0 = b.bits.getD j 0 ∧ a.bits.getD j 0 ≠ 0) ∧
            a.bits.getD i 0 < b.bits.getD i 0) := by
  rw [BitArray.lt]
  by_cases h1 : a.bitCount < b.bitCount
  · rw [if_pos h1]
    simp [h1]
  · rw [if_neg h1]
    by_cases h2 : a.bitCount > b.bitCount
    · rw [if_pos h2]
      constructor
      · intro h
        exact absurd h (by simp)
      · rintro (hlt | ⟨heq, -⟩)
        · exact absurd hlt h1
        · omega
    · rw [if_neg h2]
      rw [show (decide (BitArray.strncmpBytes a.bits b.bits
          (BitArray.getByteCount a.bitCount) < 0) = true) =
          (BitArray.strncmpBytes a.bits b.bits
            (BitArray.getByteCount a.bitCount) < 0) from decide_eq_true_eq]
      rw [BitArray.strncmpBytes_neg_iff]
      constructor
      · rintro ⟨i, hi, hpre, hlt⟩
        exact Or.inr ⟨by omega, i, hi, hpre, hlt⟩
      · rintro (hlt | ⟨-, i, hi, hpre, hlt⟩)
        · exact absurd hlt h1
        · exact ⟨i, hi, hpre, hlt⟩

/-- A one-prefix trie (`insert_or_get` of the one-bit key `1` into a fresh
`BinaryTrie<1, int>`), used as the concrete instance of the reachability
hypotheses. -/
def sampleTrie : BinaryTrie 1 Nat :=
  (BinaryTrie.lookupNode BinaryTrie.mkEmpty ⟨[128], 1⟩).1

def sampleKey : BitArray 1 := ⟨[128], 1⟩

lemma sampleTrie_reachable : Reachable sampleTrie :=
  Reachable.ins BinaryTrie.mkEmpty sampleKey (by decide) Reachable.base

lemma sampleTrie_reachableNZ : ReachableNZ sampleTrie :=
  ReachableNZ.ins BinaryTrie.mkEmpty sampleKey (by decide) (by decide) ReachableNZ.base

/-- C1: on every trie reachable by the container's operations, `best_match`
returns a stored data node whose key is a prefix of the query and is at least
as long as every other stored prefix of the query (so its payload is the one
of the longest stored prefix), and it signals `NotFound` exactly when no
stored key is a prefix of the query. -/
theorem best_match_correct [Inhabited T] (t : BinaryTrie N T) (q : BitArray N)
    (h : Reachable t) (hq : q.WF) :
    (∀ m, BinaryTrie.searchBest t q = some m →
      m ∈ BinaryTrie.trieNodes t ∧ DataN m ∧ PrefixFor m q ∧
      ∀ m' ∈ BinaryTrie.trieNodes t, DataN m' → PrefixFor m' q →
        m'.key.bitCount ≤ m.key.bitCount) ∧
    (BinaryTrie.searchBest t q = none →
      ∀ m' ∈ BinaryTrie.trieNodes t, DataN m' → ¬PrefixFor m' q) :=
  searchBest_spec t q (reachable_good h).1 hq

theorem best_match_correct_witness :
    sampleKey.WF ∧
    ((∀ m, BinaryTrie.searchBest sampleTrie sampleKey = some m →
      m ∈ BinaryTrie.trieNodes sampleTrie ∧ DataN m ∧ PrefixFor m sampleKey ∧
      ∀ m' ∈ BinaryTrie.trieNodes sampleTrie, DataN m' → PrefixFor m' sampleKey →
        m'.key.bitCount ≤ m.key.bitCount) ∧
    (BinaryTrie.searchBest sampleTrie sampleKey = none →
      ∀ m' ∈ BinaryTrie.trieNodes sampleTrie, DataN m' → ¬PrefixFor m' sampleKey)) :=
  ⟨by decide, best_match_correct sampleTrie sampleKey sampleTrie_reachable (by decide)⟩

/-- C2 (amended: the inserted key must be non-empty; inserting the empty key
creates a node that `get_exact` then cannot find, see
`insert_then_get_exact_cex`): immediately after `insert_or_get(k)` on a
reachable trie, `get_exact(k)` succeeds and yields the node with the very id
(heap address) whose payload reference `insert_or_get` returned. -/
theorem insert_then_get_exact [Inhabited T] (t : BinaryTrie N T) (q : BitArray N)
    (h : Reachable t) (hq : q.WF) (hnz : q.bitCount ≠ 0) :
    ∃ m, BinaryTrie.searchExact (BinaryTrie.lookupNode t q).1 q = some m ∧
      m.nid = (BinaryTrie.lookupNode t q).2 := by
  obtain ⟨hI, -, -, -⟩ := reachable_good h
  obtain ⟨c1, -, -, -, -, -, hex⟩ := lookupNode_spec t q hI hq
  obtain ⟨m, hmem, hnid, hDm, hexm⟩ := hex hnz
  obtain ⟨rt', hrt'⟩ : ∃ rt', (BinaryTrie.lookupNode t q).1.root = some rt' := by
    cases hr : (BinaryTrie.lookupNode t q).1.root with
    | none =>
      rw [hr] at hmem
      exact absurd hmem (by simp [nodesO_none])
    | some rt' => exact ⟨rt', rfl⟩
  have hrtI := c1 rt' hrt'
  have hmem' : m ∈ rt'.nodesOf := by
    rw [hrt'] at hmem
    exact hmem
  obtain ⟨p', hp'⟩ := searchExactAux_finds q hq rt' [] (fun _ => false) 0 m
    hrtI hmem' hDm hexm
  refine ⟨m, ?_, hnid⟩
  simp only [BinaryTrie.searchExact, hrt', hp']
  rfl

/-- C2 counterexample: inserting the empty key into the empty trie hands out
a payload reference, but `get_exact` of the same key then fails. -/
theorem insert_then_get_exact_cex :
    BinaryTrie.searchExact
      (BinaryTrie.lookupNode (BinaryTrie.mkEmpty : BinaryTrie 1 Nat) ⟨[0], 0⟩).1
      ⟨[0], 0⟩ = none := rfl

theorem insert_then_get_exact_witness :
    sampleKey.WF ∧ sampleKey.bitCount ≠ 0 ∧
    ∃ m, BinaryTrie.searchExact
        (BinaryTrie.lookupNode (BinaryTrie.mkEmpty : BinaryTrie 1 Nat) sampleKey).1
          sampleKey = some m ∧
      m.nid = (BinaryTrie.lookupNode (BinaryTrie.mkEmpty : BinaryTrie 1 Nat) sampleKey).2 :=
  ⟨by decide, by decide, insert_then_get_exact BinaryTrie.mkEmpty sampleKey
    Reachable.base (by decide) (by decide)⟩

/-- C3 (amended: restricted to non-empty insertion keys; inserting the empty
key creates a childless node with an empty key at the root, see
`glue_node_empty_key_cex`): in every trie reachable by `insert_or_get` of
non-empty keys and `erase`, every glue node (empty stored key) has both
children. -/
theorem glue_nodes_have_two_children [Inhabited T] (t : BinaryTrie N T)
    (h : ReachableNZ t) :
    ∀ m ∈ BinaryTrie.trieNodes t, m.key.bitCount = 0 →
      m.left.isSome ∧ m.right.isSome := by
  intro m hm h0
  obtain ⟨hI, -, -, -⟩ := reachable_good (reachableNZ_reachable h)
  have hz := reachableNZ_rootZero h
  cases hr : t.root with
  | none =>
    rw [show BinaryTrie.trieNodes t = nodesO t.root from rfl, hr] at hm
    exact absurd hm (by simp [nodesO_none])
  | some rt =>
    have hm' : m ∈ rt.nodesOf := by
      rw [show BinaryTrie.trieNodes t = nodesO t.root from rfl, hr] at hm
      exact hm
    exact glue_children_all (hI rt hr) (hz rt hr) m hm' h0

/-- C3 counterexample: after `insert_or_get` of the empty key on the empty
trie, the trie holds a node with an empty key and no children at all. -/
theorem glue_node_empty_key_cex :
    ∃ m ∈ BinaryTrie.trieNodes
        (BinaryTrie.lookupNode (BinaryTrie.mkEmpty : BinaryTrie 1 Nat) ⟨[0], 0⟩).1,
      m.key.bitCount = 0 ∧ m.left = none ∧ m.right = none :=
  ⟨TrieNode.node 0 ⟨[0], 0⟩ 0 default none none,
    List.mem_cons_self _ _, rfl, rfl, rfl⟩

theorem glue_nodes_have_two_children_witness :
    sampleKey.WF ∧
    ∀ m ∈ BinaryTrie.trieNodes sampleTrie, m.key.bitCount = 0 →
      m.left.isSome ∧ m.right.isSome :=
  ⟨by decide, glue_nodes_have_two_children sampleTrie sampleTrie_reachableNZ⟩

/-- C4: `first_differing_bit(other, limit)` on well-formed bit strings of `N`
bytes with `limit ≤ N·8` returns `d ≤ limit` with all bits below `d` equal
and either `d = limit` or a genuine difference at `d`. -/
theorem first_different_bit_correct (a b : BitArray N) (limit : Nat)
    (ha : a.WF) (hb : b.WF) (hl : limit ≤ 8 * N) :
    a.firstDifferentBit b limit ≤ limit ∧
    (∀ i, i < a.firstDifferentBit b limit → a.bit i = b.bit i) ∧
    (a.firstDifferentBit b limit = limit ∨
      a.bit (a.firstDifferentBit b limit) ≠ b.bit (a.firstDifferentBit b limit)) :=
  BitArray.firstDifferentBit_spec a b limit ha.2.1 hb.2.1

theorem first_different_bit_correct_witness :
    (⟨[170], 8⟩ : BitArray 1).WF ∧ (⟨[168], 8⟩ : BitArray 1).WF ∧ 8 ≤ 8 * 1 ∧
    ((⟨[170], 8⟩ : BitArray 1).firstDifferentBit ⟨[168], 8⟩ 8 ≤ 8 ∧
    (∀ i, i < (⟨[170], 8⟩ : BitArray 1).firstDifferentBit ⟨[168], 8⟩ 8 →
      (⟨[170], 8⟩ : BitArray 1).bit i = (⟨[168], 8⟩ : BitArray 1).bit i) ∧
    ((⟨[170], 8⟩ : BitArray 1).firstDifferentBit ⟨[168], 8⟩ 8 = 8 ∨
      (⟨[170], 8⟩ : BitArray 1).bit ((⟨[170], 8⟩ : BitArray 1).firstDifferentBit ⟨[168], 8⟩ 8) ≠
        (⟨[168], 8⟩ : BitArray 1).bit ((⟨[170], 8⟩ : BitArray 1).firstDifferentBit ⟨[168], 8⟩ 8))) :=
  ⟨by decide, by decide, by decide,
    first_different_bit_correct ⟨[170], 8⟩ ⟨[168], 8⟩ 8 (by decide) (by decide) (by decide)⟩

/-- C5: `compare_bits(other, nbits)` on well-formed bit strings is true
exactly when both logical lengths reach `nbits` and the first `nbits` bits
agree (storage bits beyond `nbits` are ignored). -/
theorem compare_bits_correct (a b : BitArray N) (nbits : Nat)
    (ha : a.WF) (hb : b.WF) :
    (a.compareBits b nbits = true) ↔
      (nbits ≤ a.bitCount ∧ nbits ≤ b.bitCount ∧
        ∀ i, i < nbits → a.bit i = b.bit i) :=
  BitArray.compareBits_spec a b nbits ha hb

theorem compare_bits_correct_witness :
    (⟨[170], 8⟩ : BitArray 1).WF ∧ (⟨[171], 8⟩ : BitArray 1).WF ∧
    (((⟨[170], 8⟩ : BitArray 1).compareBits ⟨[171], 8⟩ 6 = true) ↔
      (6 ≤ (⟨[170], 8⟩ : BitArray 1).bitCount ∧ 6 ≤ (⟨[171], 8⟩ : BitArray 1).bitCount ∧
        ∀ i, i < 6 → (⟨[170], 8⟩ : BitArray 1).bit i = (⟨[171], 8⟩ : BitArray 1).bit i)) :=
  ⟨by decide, by decide,
    compare_bits_correct ⟨[170], 8⟩ ⟨[171], 8⟩ 6 (by decide) (by decide)⟩

/-- C6: on every reachable trie, `erase(key)` signals `NotFound` exactly when
no data node stores exactly `key` (same length and bits), and in that case
the trie is left completely unchanged and nothing is freed. -/
theorem erase_notfound_iff [Inhabited T] (t : BinaryTrie N T) (q : BitArray N)
    (h : Reachable t) (hq : q.WF) :
    ((BinaryTrie.erase t q).2.2 = false ↔
      ¬∃ m ∈ BinaryTrie.trieNodes t, DataN m ∧ ExactFor m q) ∧
    ((BinaryTrie.erase t q).2.2 = false →
      (BinaryTrie.erase t q).1 = t ∧ (BinaryTrie.erase t q).2.1 = []) := by
  obtain ⟨hI, hC, -, -⟩ := reachable_good h
  obtain ⟨-, -, -, -, -, -, hiff, hunch⟩ := erase_spec t q hI hq hC
  refine ⟨?_, hunch⟩
  constructor
  · intro hf hexx
    have := hiff.2 hexx
    rw [this] at hf
    exact absurd hf (by simp)
  · intro hne
    cases hok : (BinaryTrie.erase t q).2.2 with
    | false => rfl
    | true => exact absurd (hiff.1 hok) hne

theorem erase_notfound_iff_witness :
    (⟨[0], 1⟩ : BitArray 1).WF ∧
    (((BinaryTrie.erase sampleTrie ⟨[0], 1⟩).2.2 = false ↔
      ¬∃ m ∈ BinaryTrie.trieNodes sampleTrie, DataN m ∧ ExactFor m (⟨[0], 1⟩ : BitArray 1)) ∧
    ((BinaryTrie.erase sampleTrie ⟨[0], 1⟩).2.2 = false →
      (BinaryTrie.erase sampleTrie ⟨[0], 1⟩).1 = sampleTrie ∧
      (BinaryTrie.erase sampleTrie ⟨[0], 1⟩).2.1 = [])) :=
  ⟨by decide, erase_notfound_iff sampleTrie ⟨[0], 1⟩ sampleTrie_reachable (by decide)⟩

/-- C7: erasing the only node of a one-node trie executes `delete node`
twice — the freed-id trace is `[0, 0]`, the same heap id freed twice (the
source deletes `node`, then, seeing `parent == NULL`, clears the root and
deletes `node` again), contradicting the required free-exactly-once
behaviour; the root is still cleared. -/
theorem erase_last_node_double_free :
    (BinaryTrie.erase sampleTrie sampleKey).2.1 = [0, 0] ∧
    (BinaryTrie.erase sampleTrie sampleKey).1.root = none := ⟨rfl, rfl⟩

/-- C8: `insert_or_get` allocates at most two nodes per call (`size` grows by
at most 2, unconditionally); `erase` never allocates (`size` never grows and
the allocation counter stays put; `get_exact` and `best_match` are read-only
and return no new state at all); E insertions into a fresh trie leave at most
`2·E` live nodes. -/
theorem allocation_bounds [Inhabited T] :
    (∀ (t : BinaryTrie N T) (q : BitArray N),
      BinaryTrie.size (BinaryTrie.lookupNode t q).1 ≤ BinaryTrie.size t + 2) ∧
    (∀ (t : BinaryTrie N T) (q : BitArray N),
      BinaryTrie.size (BinaryTrie.erase t q).1 ≤ BinaryTrie.size t ∧
      (BinaryTrie.erase t q).1.nextId = t.nextId) ∧
    ∀ ks : List (BitArray N),
      BinaryTrie.size (ks.foldl (fun t q => (BinaryTrie.lookupNode t q).1)
        (BinaryTrie.mkEmpty : BinaryTrie N T)) ≤ 2 * ks.length := by
  refine ⟨fun t q => (lookupNode_size t q).2, fun t q => erase_size t q, ?_⟩
  intro ks
  have h := fold_insert_size (T := T) ks BinaryTrie.mkEmpty
  rw [show (BinaryTrie.mkEmpty : BinaryTrie N T).numNodes = 0 from rfl, zero_add] at h
  exact h

/-- C9 counterexample to plain byte-lexicographic order: with equal lengths
`[0, 1] < [0, 2]` lexicographically, but the implementation's `strncmp`
stops at the first byte (a NUL) and reports "equal", so `operator<` is
false. -/
theorem lt_byte_order_cex :
    BitArray.lt (⟨[0, 1], 16⟩ : BitArray 2) ⟨[0, 2], 16⟩ = false ∧
    BitArray.bytesLexLt [0, 1] [0, 2] = true ∧
    (⟨[0, 1], 16⟩ : BitArray 2).bitCount = (⟨[0, 2], 16⟩ : BitArray 2).bitCount :=
  ⟨rfl, rfl, rfl⟩

/-- C10: refuted. The source's `clear()` (src/bintrie.h) deletes every node
and zeroes `numNodes` but never assigns `root = NULL`: clearing the one-node
trie frees id 0 and makes `size()` report 0, yet the root pointer is left
unchanged — dangling on the freed root node — so `empty()` still returns
`false`, and a second `clear()` (the destructor performs one) walks the freed
node graph and frees id 0 a second time: a double free. -/
theorem clear_leaves_dangling_root :
    BinaryTrie.size (BinaryTrie.clear sampleTrie).1 = 0 ∧
    (BinaryTrie.clear sampleTrie).2 = [0] ∧
    (BinaryTrie.clear sampleTrie).1.root = sampleTrie.root ∧
    BinaryTrie.empty (BinaryTrie.clear sampleTrie).1 = false ∧
    (BinaryTrie.clear (BinaryTrie.clear sampleTrie).1).2 = [0] := by
  refine ⟨rfl, ?_, rfl, rfl, ?_⟩ <;>
  · show BinaryTrie.clearLoop
      (TrieNode.node 0 (⟨[128], 1⟩ : BitArray 1) 1 (default : Nat) none none) [] [] = [0]
    rw [BinaryTrie.clearLoop]
    rfl

end Claims
